import Mathlib

/-!
Verification of the drilling-machine JSON processing pipeline.

The development shallowly embeds the transform library (Functions_DM.py)
and the pipeline runner (Main_program.py):

* JSON values are modelled by the mutual inductive `Value` / `VList` /
  `VDict`.  Python dicts preserve insertion order and assignment to an
  existing key replaces the value in place, so a dict is an ordered
  association list; all dicts reachable from `json.load` output have
  string keys, which is what the model fixes.  Python floats are
  modelled as rationals (exact arithmetic stands in for IEEE doubles;
  NaN and infinity are outside the model domain).
* Each transform of Functions_DM.py becomes a total Lean function of
  the same name.
* The pipeline loop, the batch driver loop and the atomic-write
  sequence of Main_program.py become explicit step functions / traces.
-/

set_option maxHeartbeats 1000000
set_option maxRecDepth 2000

namespace DM

mutual

/-- A JSON-decoded Python value as produced by json.load. -/
inductive Value where
  | null : Value
  | bool (b : Bool) : Value
  | int (n : Int) : Value
  | float (q : ℚ) : Value
  | str (s : String) : Value
  | list (xs : VList) : Value
  | dict (es : VDict) : Value
deriving DecidableEq

/-- A Python list of values. -/
inductive VList where
  | nil : VList
  | cons (hd : Value) (tl : VList) : VList
deriving DecidableEq

/-- A Python dict with string keys: an ordered association list. -/
inductive VDict where
  | nil : VDict
  | cons (k : String) (v : Value) (tl : VDict) : VDict
deriving DecidableEq

end

namespace VDict

/-- Python d.get(key): value of the first entry with this key. -/
def get : VDict → String → Option Value
  | .nil, _ => none
  | .cons k v tl, key => if k = key then some v else tl.get key

/-- Python d[key] = val: replace the value in place if the key is
present (keeping its position), else append a new entry. -/
def insert : VDict → String → Value → VDict
  | .nil, key, val => .cons key val .nil
  | .cons k v tl, key, val =>
    if k = key then .cons k val tl else .cons k v (tl.insert key val)

/-- Python d.pop(key, None): remove the entry with this key. -/
def erase : VDict → String → VDict
  | .nil, _ => .nil
  | .cons k v tl, key => if k = key then tl else .cons k v (tl.erase key)

/-- The keys of the dict, in insertion order. -/
def keys : VDict → List String
  | .nil => []
  | .cons k _ tl => k :: tl.keys

/-- Number of entries. -/
def length : VDict → Nat
  | .nil => 0
  | .cons _ _ tl => tl.length + 1

end VDict

/-- str.lower, modelled character-wise on the underlying data (the keys
in scope are ASCII, where Char.toLower agrees with Python). -/
def strLower (s : String) : String :=
  ⟨s.data.map Char.toLower⟩

/-- Membership test for the dash character (the source checks
"-" in value before attempting strptime). -/
def containsDash (s : String) : Bool :=
  s.data.any (fun c => c = '-')

/-- str.split on a single dash, on character lists (mirrors
String.splitOn "-", written recursively so the kernel can reduce it). -/
def splitDash : List Char → List (List Char)
  | [] => [[]]
  | c :: t =>
    if c = '-' then [] :: splitDash t
    else match splitDash t with
      | [] => [[c]]
      | h :: r => (c :: h) :: r

/-- str.strip: drop leading and trailing whitespace (ASCII whitespace
modelled, which covers the JSON-borne strings in scope). -/
def stripWs (s : String) : String :=
  ⟨((s.data.dropWhile Char.isWhitespace).reverse.dropWhile Char.isWhitespace).reverse⟩

/-- RELEVANT_KEYS of Functions_DM.py: the allow-list of top-level keys. -/
def RELEVANT_KEYS : List String :=
  ["machine_id", "name", "location", "status", "specifications",
   "last_maintenance_date", "next_maintenance_due", "contact_information"]

/-- METERS_PER_MILE of Functions_DM.py. -/
def METERS_PER_MILE : ℚ := 1609

mutual

/-- Functions_DM._deep_normalize_keys on a value: recursively lower-case
dict keys; for lists, apply to each element; leaves pass through. -/
def deep_normalize_keys : Value → Value
  | .dict es => .dict (deepNormEntries es .nil)
  | .list xs => .list (deepNormList xs)
  | v => v

/-- Elementwise `deep_normalize_keys` over a list. -/
def deepNormList : VList → VList
  | .nil => .nil
  | .cons v tl => .cons (deep_normalize_keys v) (deepNormList tl)

/-- The dict comprehension of _deep_normalize_keys: iterate the entries
in order and assign result[k.lower()] = normalized v (assignment to an
existing key overwrites its value in place, as in Python). -/
def deepNormEntries : VDict → VDict → VDict
  | .nil, acc => acc
  | .cons k v tl, acc =>
    deepNormEntries tl (acc.insert (strLower k) (deep_normalize_keys v))

end

/-- Functions_DM.normalisation_casse_clefs: deep-copied dict with all
string keys lower-cased; non-mapping input yields an empty dict.
(str.lower is modelled by String.toLower; keys in scope are ASCII.) -/
def normalisation_casse_clefs : Value → Value
  | .dict es => .dict (deepNormEntries es .nil)
  | _ => .dict .nil

/-- The top-level filter loop of remove_irrelevant_data_points: keep the
entries whose key is in RELEVANT_KEYS, in order. -/
def filterRelevant : VDict → VDict
  | .nil => .nil
  | .cons k v tl =>
    if k ∈ RELEVANT_KEYS then .cons k v (filterRelevant tl) else filterRelevant tl

/-- Functions_DM.remove_irrelevant_data_points: drop top-level keys not
in RELEVANT_KEYS; non-mapping input yields an empty dict. -/
def remove_irrelevant_data_points : Value → Value
  | .dict es => .dict (filterRelevant es)
  | _ => .dict .nil

/-- The decimal digit character for n mod 10. -/
def digitChar (n : Nat) : Char :=
  match n % 10 with
  | 0 => '0' | 1 => '1' | 2 => '2' | 3 => '3' | 4 => '4'
  | 5 => '5' | 6 => '6' | 7 => '7' | 8 => '8' | _ => '9'

/-- Zero-padded two-digit rendering (strftime %d / %m; the day and
month parsed by strptime are at most two digits). -/
def pad2 (n : Nat) : String :=
  ⟨[digitChar (n / 10), digitChar n]⟩

/-- Zero-padded four-digit rendering (strftime %Y as documented for
datetime; the year parsed by strptime has exactly four digits). -/
def pad4 (n : Nat) : String :=
  ⟨[digitChar (n / 1000), digitChar (n / 100), digitChar (n / 10), digitChar n]⟩

/-- Decimal digit run to its value. -/
def digitsToNat (cs : List Char) : Nat :=
  cs.foldl (fun a c => 10 * a + (c.toNat - 48)) 0

/-- All characters are decimal digits (ASCII digits modelled). -/
def allDigits (cs : List Char) : Bool :=
  cs.all Char.isDigit

/-- The strptime %Y field: exactly four digits. -/
def yearField (cs : List Char) : Option Nat :=
  if cs.length = 4 ∧ allDigits cs then some (digitsToNat cs) else none

/-- The strptime %m field: one or two digits with value 1..12
(the regex 1[0-2]|0[1-9]|[1-9], so a leading zero pad is optional). -/
def monthField (cs : List Char) : Option Nat :=
  if (cs.length = 1 ∨ cs.length = 2) ∧ allDigits cs then
    if 1 ≤ digitsToNat cs ∧ digitsToNat cs ≤ 12 then some (digitsToNat cs) else none
  else none

/-- The strptime %d field: one or two digits with value 1..31
(the regex 3[01]|[12]\d|0[1-9]|[1-9]). -/
def dayField (cs : List Char) : Option Nat :=
  if (cs.length = 1 ∨ cs.length = 2) ∧ allDigits cs then
    if 1 ≤ digitsToNat cs ∧ digitsToNat cs ≤ 31 then some (digitsToNat cs) else none
  else none

/-- Gregorian leap-year rule used by datetime. -/
def isLeap (y : Nat) : Bool :=
  (y % 4 = 0 && y % 100 ≠ 0) || y % 400 = 0

/-- Days in a month, as validated by the datetime constructor. -/
def daysInMonth (y m : Nat) : Nat :=
  if m = 2 then (if isLeap y then 29 else 28)
  else if m = 4 ∨ m = 6 ∨ m = 9 ∨ m = 11 then 30
  else 31

/-- Functions_DM._format_iso_date_to_ddmmyyyy: if the string fully
matches strptime format %Y-%m-%d and denotes a valid calendar date
(datetime also requires year at least 1), render it as %d/%m/%Y;
otherwise None.  The match is modelled by splitting on the dash, which
is equivalent to the strptime regex since the three fields are pure
digit runs.  The initial dash-membership test mirrors the source. -/
def format_iso_date_to_ddmmyyyy (s : String) : Option String :=
  if ¬ containsDash s then none
  else match splitDash s.data with
    | [ys, ms, ds] =>
      match yearField ys, monthField ms, dayField ds with
      | some y, some m, some d =>
        if 1 ≤ y ∧ d ≤ daysInMonth y m then
          some (pad2 d ++ "/" ++ pad2 m ++ "/" ++ pad4 y)
        else none
      | _, _, _ => none
    | _ => none

/-- One iteration of the date loop in format_dates: if the value under
the key is a string whose conversion succeeds, assign the converted
string; otherwise leave the dict unchanged. -/
def formatDateKey (es : VDict) (key : String) : VDict :=
  match es.get key with
  | some (.str s) =>
    match format_iso_date_to_ddmmyyyy s with
    | some t => es.insert key (.str t)
    | none => es
  | _ => es

/-- Functions_DM.format_dates: shallow copy, then convert the two
maintenance date fields in order; non-mapping input yields empty dict. -/
def format_dates : Value → Value
  | .dict es =>
    .dict (formatDateKey (formatDateKey es "last_maintenance_date")
            "next_maintenance_due")
  | _ => .dict .nil

/-- CPython float() on a stripped string, modelled for finite decimal
literals: optional sign, digits with optional fractional part, optional
exponent.  (The nan/inf spellings fall outside the rational value
domain, and digit-group underscores and non-ASCII digits are not
modelled; no claim exercises them.) -/
def parsePyFloat (s : String) : Option ℚ :=
  let cs := s.data
  let sgncs : ℚ × List Char :=
    match cs with
    | '+' :: t => (1, t)
    | '-' :: t => (-1, t)
    | _ => (1, cs)
  let ip := sgncs.2.takeWhile Char.isDigit
  let rest1 := sgncs.2.dropWhile Char.isDigit
  let fprest : List Char × List Char :=
    match rest1 with
    | '.' :: t => (t.takeWhile Char.isDigit, t.dropWhile Char.isDigit)
    | _ => ([], rest1)
  let hasDot : Bool := match rest1 with | '.' :: _ => true | _ => false
  if ip.isEmpty && fprest.1.isEmpty then none
  else
    let mant : ℚ :=
      (digitsToNat ip : ℚ) + (digitsToNat fprest.1 : ℚ) / (10 : ℚ) ^ fprest.1.length
    let afterMant := if hasDot then fprest.2 else rest1
    match afterMant with
    | [] => some (sgncs.1 * mant)
    | e :: t =>
      if e = 'e' ∨ e = 'E' then
        let esgn : Int × List Char :=
          match t with
          | '+' :: t2 => (1, t2)
          | '-' :: t2 => (-1, t2)
          | _ => (1, t)
        let ed := esgn.2.takeWhile Char.isDigit
        let erest := esgn.2.dropWhile Char.isDigit
        if ed.isEmpty ∨ ¬ erest.isEmpty then none
        else some (sgncs.1 * mant * (10 : ℚ) ^ (esgn.1 * (digitsToNat ed : Int)))
      else none

/-- Functions_DM._to_float: None for null; bool is an int in Python so
True maps to 1.0 and False to 0.0; numeric values convert directly;
anything else goes through float(str(value).strip()), which succeeds
exactly for numeric strings (str of a list or dict never parses). -/
def to_float : Value → Option ℚ
  | .null => none
  | .bool b => some (if b then 1 else 0)
  | .int n => some (n : ℚ)
  | .float q => some q
  | .str s => parsePyFloat (stripWs s)
  | .list _ => none
  | .dict _ => none

/-- One mileage conversion in convert_miles_to_meters: read the mile
key, parse it; on success pop the mile key and assign the meter key to
the parsed value times METERS_PER_MILE, reporting a change. -/
def convertField (sp : VDict) (mileKey meterKey : String) : VDict × Bool :=
  match sp.get mileKey with
  | none => (sp, false)
  | some v =>
    match to_float v with
    | none => (sp, false)
    | some q => ((sp.erase mileKey).insert meterKey (.float (q * METERS_PER_MILE)), true)

/-- Functions_DM.convert_miles_to_meters: shallow copy; specs is a copy
of the specifications mapping when it is one, else an empty dict; the
two mileage fields are converted best-effort; the specs copy is stored
back when something changed or the key was present at all. -/
def convert_miles_to_meters : Value → Value
  | .dict es =>
    let spv := es.get "specifications"
    let sp : VDict := match spv with | some (.dict sp) => sp | _ => .nil
    let p1 := convertField sp "depth_capacity_miles" "depth_capacity_meters"
    let p2 := convertField p1.1 "drilling_speed_miles_per_day" "drilling_speed_meters_per_day"
    if p1.2 || p2.2 then .dict (es.insert "specifications" (.dict p2.1))
    else if spv.isSome then .dict (es.insert "specifications" (.dict p2.1))
    else .dict es
  | _ => .dict .nil

/-- The all-null contact template of missing_contact_information. -/
def contactTemplate : VDict :=
  .cons "operator_company" .null
    (.cons "contact_person" .null
      (.cons "phone" .null
        (.cons "email" .null .nil)))

/-- Functions_DM.missing_contact_information: shallow copy; when the
contact_information value is not a mapping (or absent), assign the
all-null template; an existing mapping is left untouched. -/
def missing_contact_information : Value → Value
  | .dict es =>
    match es.get "contact_information" with
    | some (.dict _) => .dict es
    | _ => .dict (es.insert "contact_information" (.dict contactTemplate))
  | _ => .dict .nil

/-- The five-step pipeline of Main_program.py, applied to one record. -/
def applyPipeline (v : Value) : Value :=
  missing_contact_information
    (convert_miles_to_meters
      (format_dates
        (remove_irrelevant_data_points
          (normalisation_casse_clefs v))))

/-- Top-level lookup on a value: the entry of a dict, none otherwise. -/
def topGet (v : Value) (k : String) : Option Value :=
  match v with
  | .dict es => es.get k
  | _ => none

/-- isinstance(x, dict). -/
def isDictV : Value → Bool
  | .dict _ => true
  | _ => false

/-- The parsed mileage reading of a spec field: specs.get followed by
_to_float (absent behaves as None, which _to_float rejects). -/
def parsedMile (sp : VDict) (k : String) : Option ℚ :=
  match sp.get k with
  | some v => to_float v
  | none => none

/-- Modelled from the spec words, for comparison with the code: a
string matching the pattern YYYY-MM-DD, read strictly as four digits,
dash, two digits, dash, two digits. -/
def strictIsoShape (s : String) : Bool :=
  match splitDash s.data with
  | [ys, ms, ds] =>
    ys.length = 4 && allDigits ys && ms.length = 2 && allDigits ms &&
      ds.length = 2 && allDigits ds
  | _ => false

/-- The year-month-day digit fields of a dash-separated date string:
exactly four year digits, one or two month digits, one or two day
digits (the shape strptime %Y-%m-%d actually accepts). -/
def isoDateFields (s : String) : Option (Nat × Nat × Nat) :=
  match splitDash s.data with
  | [ys, ms, ds] =>
    if ys.length = 4 ∧ allDigits ys ∧ (ms.length = 1 ∨ ms.length = 2) ∧
        allDigits ms ∧ (ds.length = 1 ∨ ds.length = 2) ∧ allDigits ds then
      some (digitsToNat ys, digitsToNat ms, digitsToNat ds)
    else none
  | _ => none

/-- A valid proleptic Gregorian calendar date as accepted by the
datetime constructor (year at least 1). -/
def validCalendarDate (y m d : Nat) : Bool :=
  1 ≤ y && 1 ≤ m && m ≤ 12 && 1 ≤ d && d ≤ daysInMonth y m

/-- The DD/MM/YYYY rendering of a date (strftime %d/%m/%Y). -/
def renderDDMMYYYY (y m d : Nat) : String :=
  pad2 d ++ "/" ++ pad2 m ++ "/" ++ pad4 y

/-- Whether a string is a date the conversion accepts: parseable
fields that form a valid calendar date. -/
def isoOk (s : String) : Bool :=
  match isoDateFields s with
  | some (y, m, d) => validCalendarDate y m d
  | none => false

/-- The value of the last entry whose lower-cased key equals the given
(already lower-cased) key. -/
def lastLowerHit : VDict → String → Option Value
  | .nil, _ => none
  | .cons k v tl, key =>
    match lastLowerHit tl key with
    | some w => some w
    | none => if strLower k = key then some v else none

/-- Number of entries carrying the given key. -/
def countKey : VDict → String → Nat
  | .nil, _ => 0
  | .cons k _ tl, key => (if k = key then 1 else 0) + countKey tl key

/-- The lower-cased keys that the normalisation fold adds beyond an
already-seen key list, in first-occurrence order. -/
def lowKeysAdded : VDict → List String → List String
  | .nil, _ => []
  | .cons k _ tl, seen =>
    if strLower k ∈ seen then lowKeysAdded tl seen
    else strLower k :: lowKeysAdded tl (strLower k :: seen)

/-- Concatenation of dicts (used only to state rebuild lemmas). -/
def VDict.cat : VDict → VDict → VDict
  | .nil, d => d
  | .cons k v tl, d => .cons k v (tl.cat d)

mutual

/-- Deeply normalised values: every dict key at every level is fixed
by lower-casing and no dict level carries a duplicate key.  This is
the invariant the normalisation step establishes. -/
def normedV : Value → Bool
  | .dict es => normedD es
  | .list xs => normedL xs
  | _ => true

/-- normedV over a list. -/
def normedL : VList → Bool
  | .nil => true
  | .cons v tl => normedV v && normedL tl

/-- normedV over dict entries. -/
def normedD : VDict → Bool
  | .nil => true
  | .cons k v tl =>
    (strLower k = k : Bool) && !(tl.keys.contains k) && normedV v && normedD tl

end

/-- The two maintenance date keys targeted by format_dates. -/
def dateKeys : List String := ["last_maintenance_date", "next_maintenance_due"]

/-- A date entry that the formatting step would leave unchanged. -/
def stableDate (es : VDict) (k : String) : Prop :=
  ∀ s, es.get k = some (.str s) → format_iso_date_to_ddmmyyyy s = none

/-- The specifications entry is absent, or a mapping none of whose two
mileage fields parses (the shape the conversion step leaves behind). -/
def specsOk (es : VDict) : Prop :=
  es.get "specifications" = none ∨
    ∃ sp, es.get "specifications" = some (.dict sp) ∧
      parsedMile sp "depth_capacity_miles" = none ∧
      parsedMile sp "drilling_speed_miles_per_day" = none

/-- The contact_information entry holds a mapping. -/
def contactOk (es : VDict) : Prop :=
  ∃ sub, es.get "contact_information" = some (.dict sub)

/-! ### Pipeline runner (Main_program.process_file, pipeline loop) -/

/-- What one Python pipeline step invocation can do: return a value or
raise an exception (identified by a descriptive tag). -/
inductive StepOut where
  | ret (v : Value)
  | raise (e : String)
deriving DecidableEq

/-- A pipeline step: a callable plus the name _step_name reports. -/
structure PStep where
  name : String
  fn : Value → StepOut

/-- The PipelineStepError payload: the failing step name and the file
name from the message, and the __cause__ chained by raise-from (absent
for the not-a-dict contract violation, which has no from clause). -/
structure PipeErr where
  step : String
  file : String
  cause : Option String
deriving DecidableEq

/-- The pipeline loop of process_file: apply each step in order; an
exception inside a step becomes a PipeErr with that cause; a step
result that is not a dict becomes a PipeErr without a cause; otherwise
the loop continues on the new value. -/
def runPipeline (file : String) : List PStep → Value → Except PipeErr Value
  | [], v => .ok v
  | s :: rest, v =>
    match s.fn v with
    | .raise e => .error ⟨s.name, file, some e⟩
    | .ret w =>
      if isDictV w then runPipeline file rest w
      else .error ⟨s.name, file, none⟩

/-- The pipeline loop instrumented with the list of step names that
actually get invoked, in invocation order. -/
def runPipelineTrace (file : String) : List PStep → Value → List String × Except PipeErr Value
  | [], v => ([], .ok v)
  | s :: rest, v =>
    match s.fn v with
    | .raise e => ([s.name], .error ⟨s.name, file, some e⟩)
    | .ret w =>
      if isDictV w then
        let t := runPipelineTrace file rest w
        (s.name :: t.1, t.2)
      else ([s.name], .error ⟨s.name, file, none⟩)

/-- Plain left-to-right sequential application of the steps (the spec
notion the success case is compared against): no dict checking, and no
result at all when a step raises. -/
def applyAll : List PStep → Value → Option Value
  | [], v => some v
  | s :: rest, v =>
    match s.fn v with
    | .raise _ => none
    | .ret w => applyAll rest w

/-- A well-behaved Python function as a pipeline step. -/
def mkStep (nm : String) (f : Value → Value) : PStep :=
  ⟨nm, fun v => .ret (f v)⟩

/-- The pipeline list of Main_program.__main__. -/
def pipelineSteps : List PStep :=
  [mkStep "normalisation_casse_clefs" normalisation_casse_clefs,
   mkStep "remove_irrelevant_data_points" remove_irrelevant_data_points,
   mkStep "format_dates" format_dates,
   mkStep "convert_miles_to_meters" convert_miles_to_meters,
   mkStep "missing_contact_information" missing_contact_information]

/-! ### Atomic write (Main_program.process_file, write phase) -/

/-- The filesystem operations the write phase performs, in program
order: create the temp file, write the serialized chunks the runtime
hands to the file object, flush, fsync, then atomically replace. -/
inductive WOp where
  | mkstemp
  | writeChunk (s : String)
  | flush
  | fsync
  | replace
deriving DecidableEq

/-- Classification of the exception a failing write operation raises:
PermissionError, another OSError, or any other exception (for example
a TypeError from json.dump). -/
inductive ExcClass where
  | permission
  | osErr
  | otherExc (tag : String)
deriving DecidableEq

/-- The two files the write phase can touch: the final output path and
the temp file.  none means the file does not exist. -/
structure FS where
  out : Option String
  tmp : Option String
deriving DecidableEq

/-- Effect of one write operation.  os.replace atomically moves the
complete temp content onto the output path (same filesystem since the
temp file is created in the output directory). -/
def applyWOp (s : FS) (op : WOp) : FS :=
  match op with
  | .mkstemp => { s with tmp := some "" }
  | .writeChunk c => { s with tmp := s.tmp.map (fun t => t ++ c) }
  | .flush => s
  | .fsync => s
  | .replace => { out := s.tmp, tmp := none }

/-- The write-phase operation sequence of process_file. -/
def writeOps (chunks : List String) : List WOp :=
  .mkstemp :: (chunks.map WOp.writeChunk ++ [.flush, .fsync, .replace])

/-- All intermediate filesystem states along a run, initial state
included. -/
def fsTrace (s : FS) : List WOp → List FS
  | [] => [s]
  | op :: rest => s :: fsTrace (applyWOp s op) rest

/-- A failure scenario: the zero-based index of the operation that
raises (it raises before taking effect) and the exception class. -/
def WriteFail : Type := Nat × ExcClass

/-- The operations that actually execute: everything on success, or
the operations before the failing one. -/
def executedOps (chunks : List String) (fail : Option WriteFail) : List WOp :=
  match fail with
  | none => writeOps chunks
  | some (n, _) => (writeOps chunks).take n

/-- The cleanup of the exception handlers: if the temp file exists,
try to unlink it; an unlink failure is swallowed. -/
def cleanupFS (s : FS) (cleanupFails : Bool) : FS :=
  if s.tmp.isSome ∧ ¬cleanupFails then { s with tmp := none } else s

/-- Final filesystem state of the write phase: run the executed
operations, then clean up if a failure interrupted the run. -/
def writeFinalFS (s : FS) (chunks : List String) (fail : Option WriteFail)
    (cleanupFails : Bool) : FS :=
  match fail with
  | none => (executedOps chunks fail).foldl applyWOp s
  | some _ => cleanupFS ((executedOps chunks fail).foldl applyWOp s) cleanupFails

/-! ### Batch driver (Main_program.main) -/

/-- An exception escaping process_file, as the batch loop classifies
it: a PipelineStepError, a FileProcessingError with its message, or
anything else. -/
inductive BatchExc where
  | pse (e : PipeErr)
  | fpe (msg : String)
  | unexpected (tag : String)
deriving DecidableEq

/-- What the exception escaping the write phase is, per the except
clauses of process_file: nothing on success; a FileProcessingError for
PermissionError and for other OSErrors; the original exception,
re-raised unchanged, for anything else. -/
def writeExc (fail : Option WriteFail) (outPathName : String) : Option BatchExc :=
  match fail with
  | none => none
  | some (_, .permission) => some (.fpe ("Permission denied writing " ++ outPathName))
  | some (_, .osErr) => some (.fpe ("OS error writing " ++ outPathName))
  | some (_, .otherExc t) => some (.unexpected t)

/-- Is the outcome a FileProcessingError? -/
def isFPE : Option BatchExc → Bool
  | some (.fpe _) => true
  | _ => false

/-- A path, split as the containing directory and the base name. -/
structure PyPath where
  dir : String
  base : String
deriving DecidableEq

/-- out_path = out_dir / in_path.name. -/
def outPath (outDir inName : String) : PyPath := ⟨outDir, inName⟩

/-- The temp path of tempfile.mkstemp(prefix, dir=out_dir): it lives
in the output directory and its name is the prefix followed by the
random suffix mkstemp appends. -/
def tmpPath (outDir inName rand : String) : PyPath :=
  ⟨outDir, "." ++ inName ++ ".tmp." ++ rand⟩

/-- How reading and parsing one input file went. -/
inductive ReadResult where
  | ok (v : Value)
  | notFound
  | permissionDenied
  | badJSON
  | osError

/-- The read phase of process_file: parsed data on success, otherwise
the specific exception wrapped as a FileProcessingError. -/
def readClassified (inName : String) (r : ReadResult) : Except BatchExc Value :=
  match r with
  | .ok v => .ok v
  | .notFound => .error (.fpe ("Input file not found: " ++ inName))
  | .permissionDenied => .error (.fpe ("Permission denied reading " ++ inName))
  | .badJSON => .error (.fpe ("Invalid JSON in " ++ inName))
  | .osError => .error (.fpe ("OS error reading " ++ inName))

/-- One file through process_file: read and classify, run the
pipeline (wrapping failures as PipelineStepError), then the write
phase with its exception classification. -/
def processFile (inName outDir : String) (rd : ReadResult) (steps : List PStep)
    (wfail : Option WriteFail) : Except BatchExc Unit :=
  match readClassified inName rd with
  | .error e => .error e
  | .ok v =>
    match runPipeline inName steps v with
    | .error pe => .error (.pse pe)
    | .ok _ =>
      match writeExc wfail (outDir ++ "/" ++ inName) with
      | some e => .error e
      | none => .ok ()

/-- One input file of a batch: its name, how its read goes, and how
its write phase goes. -/
structure FileJob where
  name : String
  rd : ReadResult
  wfail : Option WriteFail

/-- Is this outcome an exception outside the known taxonomy? -/
def isUnexpectedOutcome : Except BatchExc Unit → Bool
  | .error (.unexpected _) => true
  | _ => false

/-- Did the file process successfully? -/
def isOkOutcome : Except BatchExc Unit → Bool
  | .ok _ => true
  | _ => false

/-- The per-file loop of main: on success bump the success counter; on
PipelineStepError or FileProcessingError bump the failure counter and
continue with the next file; on any other exception re-raise, aborting
the loop.  The third component records which files were attempted, in
order (the code logs each); on abort it is returned with the error. -/
def mainLoop (outDir : String) (steps : List PStep) :
    List FileJob → Nat → Nat → List String →
      Except (BatchExc × List String) (Nat × Nat × List String)
  | [], success, failures, done => .ok (success, failures, done.reverse)
  | j :: rest, success, failures, done =>
    match processFile j.name outDir j.rd steps j.wfail with
    | .ok _ => mainLoop outDir steps rest (success + 1) failures (j.name :: done)
    | .error (.pse _) => mainLoop outDir steps rest success (failures + 1) (j.name :: done)
    | .error (.fpe _) => mainLoop outDir steps rest success (failures + 1) (j.name :: done)
    | .error (.unexpected t) => .error (.unexpected t, (j.name :: done).reverse)

/-- Concatenation of the written chunks (the full serialized
content). -/
def strConcat : List String → String
  | [] => ""
  | c :: cs => c ++ strConcat cs

/-- A demonstration pipeline for the runner theorems: a well-behaved
first step and a second step that raises. -/
def demoSteps : List PStep :=
  [mkStep "s1" (fun _ => .dict .nil),
   ⟨"boom", fun _ => .raise "ValueError"⟩]

/-- The three-file batch of the isolation scenario: file 2 has invalid
JSON, files 1 and 3 parse. -/
def demoJobs : List FileJob :=
  [⟨"drilling_machine_1.json", .ok (.dict .nil), none⟩,
   ⟨"drilling_machine_2.json", .badJSON, none⟩,
   ⟨"drilling_machine_3.json", .ok (.dict .nil), none⟩]

/-! ### Basic dict lemmas -/

/-- Structural induction over a dict alone (the generated eliminator
of the mutual inductive carries three motives, which the induction
tactic cannot use). -/
@[induction_eliminator]
def VDict.inductionOn {motive : VDict → Prop}
    (nil : motive .nil)
    (cons : ∀ (k : String) (v : Value) (tl : VDict), motive tl → motive (.cons k v tl)) :
    ∀ d, motive d
  | .nil => nil
  | .cons k v tl => cons k v tl (VDict.inductionOn nil cons tl)

theorem VDict.get_insert_self (d : VDict) (k : String) (v : Value) :
    (d.insert k v).get k = some v := by
  induction d with
  | nil => simp [VDict.insert, VDict.get]
  | cons k0 v0 tl ih =>
    by_cases h : k0 = k
    · simp [VDict.insert, h, VDict.get]
    · simp [VDict.insert, h, VDict.get, ih]

theorem VDict.get_insert_ne (d : VDict) (k k2 : String) (v : Value) (h : k ≠ k2) :
    (d.insert k v).get k2 = d.get k2 := by
  induction d with
  | nil => simp [VDict.insert, VDict.get, h]
  | cons k0 v0 tl ih =>
    by_cases h0 : k0 = k
    · subst h0
      simp [VDict.insert, VDict.get, h]
    · by_cases h2 : k0 = k2
      · simp [VDict.insert, h0, VDict.get, h2, Ne.symm h]
      · simp [VDict.insert, h0, VDict.get, h2, ih]

theorem VDict.insert_of_get_eq (d : VDict) (k : String) (v : Value)
    (h : d.get k = some v) : d.insert k v = d := by
  induction d with
  | nil => simp [VDict.get] at h
  | cons k0 v0 tl ih =>
    by_cases h0 : k0 = k
    · subst h0
      simp [VDict.get] at h
      simp [VDict.insert, h]
    · simp [VDict.get, h0] at h
      simp [VDict.insert, h0, ih h]

theorem VDict.get_erase_ne (d : VDict) (k k2 : String) (h : k ≠ k2) :
    (d.erase k).get k2 = d.get k2 := by
  induction d with
  | nil => simp [VDict.erase]
  | cons k0 v0 tl ih =>
    by_cases h0 : k0 = k
    · subst h0
      simp [VDict.erase, VDict.get, h]
    · simp [VDict.erase, h0, VDict.get, ih]

theorem VDict.keys_erase_sublist (d : VDict) (k : String) :
    (d.erase k).keys.Sublist d.keys := by
  induction d with
  | nil => simp [VDict.erase]
  | cons k0 v0 tl ih =>
    by_cases h0 : k0 = k
    · simp only [VDict.erase, h0, if_pos, VDict.keys]
      exact (List.sublist_cons_self k tl.keys).trans (by simp)
    · simp only [VDict.erase, h0, if_neg, VDict.keys, ite_false]
      exact ih.cons₂ k0

theorem VDict.not_mem_keys_get (d : VDict) (k : String) (h : k ∉ d.keys) :
    d.get k = none := by
  induction d with
  | nil => simp [VDict.get]
  | cons k0 v0 tl ih =>
    simp [VDict.keys] at h
    have h0 : ¬k0 = k := fun hh => h.1 hh.symm
    simp [VDict.get, h0, ih h.2]

theorem VDict.get_erase_self (d : VDict) (k : String) (h : d.keys.Nodup) :
    (d.erase k).get k = none := by
  induction d with
  | nil => simp [VDict.erase, VDict.get]
  | cons k0 v0 tl ih =>
    simp [VDict.keys] at h
    by_cases h0 : k0 = k
    · subst h0
      simp [VDict.erase]
      exact VDict.not_mem_keys_get tl k0 h.1
    · simp [VDict.erase, h0, VDict.get, ih h.2]

theorem VDict.keys_insert_mem (d : VDict) (k : String) (v : Value)
    (h : k ∈ d.keys) : (d.insert k v).keys = d.keys := by
  induction d with
  | nil => simp [VDict.keys] at h
  | cons k0 v0 tl ih =>
    by_cases h0 : k0 = k
    · simp [VDict.insert, h0, VDict.keys]
    · simp [VDict.keys] at h
      rcases h with h | h
      · exact absurd h.symm h0
      · simp [VDict.insert, h0, VDict.keys, ih h]

theorem VDict.keys_insert_not_mem (d : VDict) (k : String) (v : Value)
    (h : k ∉ d.keys) : (d.insert k v).keys = d.keys ++ [k] := by
  induction d with
  | nil => simp [VDict.insert, VDict.keys]
  | cons k0 v0 tl ih =>
    simp [VDict.keys] at h
    by_cases h0 : k0 = k
    · exact absurd h0.symm h.1
    · simp [VDict.insert, h0, VDict.keys, ih h.2]

theorem VDict.keys_length (d : VDict) : d.keys.length = d.length := by
  induction d with
  | nil => simp [VDict.keys, VDict.length]
  | cons k0 v0 tl ih => simp [VDict.keys, VDict.length, ih]

theorem VDict.mem_keys_get (d : VDict) (k : String) (h : k ∈ d.keys) :
    ∃ v, d.get k = some v := by
  induction d with
  | nil => simp [VDict.keys] at h
  | cons k0 v0 tl ih =>
    by_cases h0 : k0 = k
    · exact ⟨v0, by simp [VDict.get, h0]⟩
    · simp [VDict.keys] at h
      rcases h with h | h
      · exact absurd h.symm h0
      · rcases ih h with ⟨v, hv⟩
        exact ⟨v, by simp [VDict.get, h0, hv]⟩

/-! ### Character and string lemmas -/

theorem Char_toLower_idem (c : Char) : c.toLower.toLower = c.toLower := by
  unfold Char.toLower
  by_cases h : c.toNat ≥ 65 ∧ c.toNat ≤ 90
  · rw [if_pos h]
    have hv : (c.toNat + 32).isValidChar := by
      left
      omega
    have ht : (Char.ofNat (c.toNat + 32)).toNat = c.toNat + 32 := by
      rw [Char.ofNat, dif_pos hv]
      rfl
    rw [if_neg]
    rw [ht]
    omega
  · rw [if_neg h, if_neg h]

theorem strLower_idem (s : String) : strLower (strLower s) = strLower s := by
  simp only [strLower, List.map_map]
  exact congrArg String.mk (List.map_congr_left (fun c _ => Char_toLower_idem c))

/-! ### Claim C5: contact information shape -/

/-- Claim C5, counterexample: a record whose contact_information is a
partial mapping with the single key phone is returned untouched by
missing_contact_information, so the resulting contact_information key
set is not the four-field set the claim requires. -/
theorem missing_contact_keyset_cex :
    missing_contact_information
        (.dict (.cons "contact_information"
          (.dict (.cons "phone" (.str "1") .nil)) .nil)) =
      .dict (.cons "contact_information"
        (.dict (.cons "phone" (.str "1") .nil)) .nil) ∧
    (VDict.cons "phone" (.str "1") .nil).keys ≠
      ["operator_company", "contact_person", "phone", "email"] := by
  constructor
  · rfl
  · decide

/-- Claim C5 (amended): after missing_contact_information, an input
whose contact_information is already a mapping is returned unchanged
(so that mapping, key set included, is preserved as is); otherwise
contact_information is set to the all-null template, whose key set is
exactly operator_company, contact_person, phone, email. -/
theorem missing_contact_information_shape (es : VDict) :
    (∀ sub, es.get "contact_information" = some (.dict sub) →
        missing_contact_information (.dict es) = .dict es) ∧
    ((∀ sub, es.get "contact_information" ≠ some (.dict sub)) →
        topGet (missing_contact_information (.dict es)) "contact_information" =
          some (.dict contactTemplate)) ∧
    contactTemplate.keys = ["operator_company", "contact_person", "phone", "email"] := by
  refine ⟨?_, ?_, by decide⟩
  · intro sub h
    simp [missing_contact_information, h]
  · intro h
    cases hc : es.get "contact_information" with
    | none =>
      simp [missing_contact_information, hc, topGet, VDict.get_insert_self]
    | some v =>
      cases v with
      | dict sub => exact absurd hc (h sub)
      | null => simp [missing_contact_information, hc, topGet, VDict.get_insert_self]
      | bool b => simp [missing_contact_information, hc, topGet, VDict.get_insert_self]
      | int n => simp [missing_contact_information, hc, topGet, VDict.get_insert_self]
      | float q => simp [missing_contact_information, hc, topGet, VDict.get_insert_self]
      | str s => simp [missing_contact_information, hc, topGet, VDict.get_insert_self]
      | list xs => simp [missing_contact_information, hc, topGet, VDict.get_insert_self]

/-- Claim C5, witness: the amended theorem applied at a record with an
existing (empty) contact mapping and at the empty record. -/
theorem missing_contact_information_shape_witness :
    missing_contact_information
        (.dict (.cons "contact_information" (.dict .nil) .nil)) =
      .dict (.cons "contact_information" (.dict .nil) .nil) ∧
    topGet (missing_contact_information (.dict .nil)) "contact_information" =
      some (.dict contactTemplate) :=
  ⟨(missing_contact_information_shape
      (.cons "contact_information" (.dict .nil) .nil)).1 .nil rfl,
   (missing_contact_information_shape .nil).2.1
      (fun sub h => by simp [VDict.get] at h)⟩

/-! ### Claim C10: non-mapping specifications -/

/-- Claim C10: when the specifications key is present with a
non-mapping value, convert_miles_to_meters replaces it by the empty
mapping (discarding the original value); when specifications is
absent, the record is returned unchanged and in particular no
specifications key is added. -/
theorem convert_specs_nonmapping (es : VDict) :
    (∀ v, es.get "specifications" = some v → isDictV v = false →
        convert_miles_to_meters (.dict es) =
          .dict (es.insert "specifications" (.dict .nil))) ∧
    (es.get "specifications" = none →
        convert_miles_to_meters (.dict es) = .dict es ∧
        topGet (convert_miles_to_meters (.dict es)) "specifications" = none) := by
  constructor
  · intro v h hd
    cases v with
    | dict sub => simp [isDictV] at hd
    | null => simp [convert_miles_to_meters, h, convertField, VDict.get]
    | bool b => simp [convert_miles_to_meters, h, convertField, VDict.get]
    | int n => simp [convert_miles_to_meters, h, convertField, VDict.get]
    | float q => simp [convert_miles_to_meters, h, convertField, VDict.get]
    | str s => simp [convert_miles_to_meters, h, convertField, VDict.get]
    | list xs => simp [convert_miles_to_meters, h, convertField, VDict.get]
  · intro h
    refine ⟨?_, ?_⟩
    · simp [convert_miles_to_meters, h, convertField, VDict.get]
    · simp [convert_miles_to_meters, h, convertField, VDict.get, topGet]

/-- Claim C10, witness: the theorem applied at a record whose
specifications is a string, and at the empty record. -/
theorem convert_specs_nonmapping_witness :
    convert_miles_to_meters (.dict (.cons "specifications" (.str "x") .nil)) =
      .dict ((VDict.cons "specifications" (.str "x") .nil).insert
        "specifications" (.dict .nil)) ∧
    convert_miles_to_meters (.dict .nil) = .dict .nil :=
  ⟨(convert_specs_nonmapping (.cons "specifications" (.str "x") .nil)).1
      (.str "x") rfl rfl,
   ((convert_specs_nonmapping .nil).2 rfl).1⟩

/-! ### The normalisation fold -/

theorem deepNormEntries_get (es : VDict) (acc : VDict) (key : String) :
    (deepNormEntries es acc).get key =
      match lastLowerHit es key with
      | some v => some (deep_normalize_keys v)
      | none => acc.get key := by
  induction es generalizing acc with
  | nil => simp [deepNormEntries, lastLowerHit]
  | cons k v tl ih =>
    simp only [deepNormEntries, lastLowerHit]
    rw [ih]
    cases hll : lastLowerHit tl key with
    | some w => simp [hll]
    | none =>
      simp only [hll]
      by_cases hk : strLower k = key
      · simp [hk, VDict.get_insert_self]
      · simp [hk, VDict.get_insert_ne _ _ _ _ hk]

theorem insert_keys_nodup (d : VDict) (k : String) (v : Value)
    (h : d.keys.Nodup) : (d.insert k v).keys.Nodup := by
  by_cases hm : k ∈ d.keys
  · rw [VDict.keys_insert_mem _ _ _ hm]
    exact h
  · rw [VDict.keys_insert_not_mem _ _ _ hm]
    simp [List.nodup_append, h, hm]

theorem deepNormEntries_nodup (es : VDict) (acc : VDict)
    (h : acc.keys.Nodup) : (deepNormEntries es acc).keys.Nodup := by
  induction es generalizing acc with
  | nil => exact h
  | cons k v tl ih =>
    exact ih _ (insert_keys_nodup _ _ _ h)

theorem countKey_eq_zero (d : VDict) (k : String) (h : k ∉ d.keys) :
    countKey d k = 0 := by
  induction d with
  | nil => rfl
  | cons k0 v0 tl ih =>
    simp [VDict.keys] at h
    have h0 : ¬k0 = k := fun hh => h.1 hh.symm
    simp [countKey, h0, ih h.2]

theorem countKey_eq_one (d : VDict) (k : String) (hnd : d.keys.Nodup)
    (h : (d.get k).isSome) : countKey d k = 1 := by
  induction d with
  | nil => simp [VDict.get] at h
  | cons k0 v0 tl ih =>
    simp [VDict.keys, List.nodup_cons] at hnd
    by_cases h0 : k0 = k
    · subst h0
      simp [countKey, countKey_eq_zero tl k0 hnd.1]
    · simp [VDict.get, h0] at h
      simp [countKey, h0, ih hnd.2 h]

theorem lastLowerHit_isSome (es : VDict) (a : String) (ha : a ∈ es.keys) :
    (lastLowerHit es (strLower a)).isSome := by
  induction es with
  | nil => simp [VDict.keys] at ha
  | cons k v tl ih =>
    simp only [lastLowerHit]
    cases hll : lastLowerHit tl (strLower a) with
    | some w => simp
    | none =>
      simp [VDict.keys] at ha
      rcases ha with ha | ha
      · subst ha
        simp
      · have := ih ha
        rw [hll] at this
        simp at this

theorem lowKeysAdded_congr (es : VDict) (s1 s2 : List String)
    (h : ∀ x, x ∈ s1 ↔ x ∈ s2) : lowKeysAdded es s1 = lowKeysAdded es s2 := by
  induction es generalizing s1 s2 with
  | nil => rfl
  | cons k v tl ih =>
    simp only [lowKeysAdded]
    by_cases hm : strLower k ∈ s1
    · rw [if_pos hm, if_pos ((h _).1 hm)]
      exact ih _ _ h
    · rw [if_neg hm, if_neg (fun hh => hm ((h _).2 hh))]
      refine congrArg _ (ih _ _ ?_)
      intro x
      simp [h x]

theorem deepNormEntries_keys (es : VDict) (acc : VDict) :
    (deepNormEntries es acc).keys = acc.keys ++ lowKeysAdded es acc.keys := by
  induction es generalizing acc with
  | nil => simp [deepNormEntries, lowKeysAdded]
  | cons k v tl ih =>
    simp only [deepNormEntries, lowKeysAdded]
    rw [ih]
    by_cases hm : strLower k ∈ acc.keys
    · rw [VDict.keys_insert_mem _ _ _ hm, if_pos hm]
    · rw [VDict.keys_insert_not_mem _ _ _ hm, if_neg hm]
      rw [lowKeysAdded_congr tl (acc.keys ++ [strLower k]) (strLower k :: acc.keys)
        (by intro x; simp; tauto)]
      simp

theorem lowKeysAdded_length_le (es : VDict) (seen : List String) :
    (lowKeysAdded es seen).length ≤ es.length := by
  induction es generalizing seen with
  | nil => simp [lowKeysAdded, VDict.length]
  | cons k v tl ih =>
    simp only [lowKeysAdded, VDict.length]
    by_cases hm : strLower k ∈ seen
    · rw [if_pos hm]
      exact (ih seen).trans (Nat.le_succ _)
    · rw [if_neg hm]
      simpa using Nat.succ_le_succ (ih _)

theorem lowKeysAdded_length_lt_of_seen (es : VDict) (seen : List String)
    (c : String) (hc : c ∈ es.keys) (hs : strLower c ∈ seen) :
    (lowKeysAdded es seen).length < es.length := by
  induction es generalizing seen with
  | nil => simp [VDict.keys] at hc
  | cons k v tl ih =>
    simp only [lowKeysAdded, VDict.length]
    by_cases hm : strLower k ∈ seen
    · rw [if_pos hm]
      exact Nat.lt_succ_of_le (lowKeysAdded_length_le tl seen)
    · rw [if_neg hm]
      have hck : ¬c = k := fun hh => hm (hh ▸ hs)
      simp [VDict.keys, hck] at hc
      have := ih (strLower k :: seen) hc (List.mem_cons_of_mem _ hs)
      simpa using Nat.succ_lt_succ this

theorem lowKeysAdded_length_lt (es : VDict) (seen : List String)
    (a b : String) (hab : a ≠ b) (hlow : strLower a = strLower b)
    (ha : a ∈ es.keys) (hb : b ∈ es.keys) :
    (lowKeysAdded es seen).length < es.length := by
  induction es generalizing seen with
  | nil => simp [VDict.keys] at ha
  | cons k v tl ih =>
    simp only [lowKeysAdded, VDict.length]
    simp only [VDict.keys, List.mem_cons] at ha hb
    by_cases hm : strLower k ∈ seen
    · rw [if_pos hm]
      rcases ha with ha | ha
      · rcases hb with hb | hb
        · exact absurd (ha.symm ▸ hb.symm ▸ rfl) hab
        · refine lt_of_lt_of_le (lowKeysAdded_length_lt_of_seen tl seen b hb ?_)
            (Nat.le_succ _)
          rw [← hlow, ha]
          exact hm
      · rcases hb with hb | hb
        · refine lt_of_lt_of_le (lowKeysAdded_length_lt_of_seen tl seen a ha ?_)
            (Nat.le_succ _)
          rw [hlow, hb]
          exact hm
        · exact lt_of_lt_of_le (ih seen ha hb) (Nat.le_succ _)
    · rw [if_neg hm]
      rcases ha with ha | ha
      · rcases hb with hb | hb
        · exact absurd (ha.symm ▸ hb.symm ▸ rfl) hab
        · have : strLower b ∈ strLower k :: seen := by
            rw [← hlow, ha]
            exact List.mem_cons_self _ _
          simpa using Nat.succ_lt_succ
            (lowKeysAdded_length_lt_of_seen tl _ b hb this)
      · rcases hb with hb | hb
        · have : strLower a ∈ strLower k :: seen := by
            rw [hlow, hb]
            exact List.mem_cons_self _ _
          simpa using Nat.succ_lt_succ
            (lowKeysAdded_length_lt_of_seen tl _ a ha this)
        · simpa using Nat.succ_lt_succ (ih _ ha hb)

/-! ### Claim C9: key-collision behaviour of the normalisation -/

/-- Claim C9: when two distinct keys of a mapping lower-case to the
same key, normalisation_casse_clefs produces a single entry under the
lower-cased key, holding the normalised value of the colliding key
occurring last in iteration order, and the output has strictly fewer
entries than the input. -/
theorem normalisation_collision (es : VDict) (a b : String)
    (hab : a ≠ b) (hlow : strLower a = strLower b)
    (ha : a ∈ es.keys) (hb : b ∈ es.keys) :
    ∃ out, normalisation_casse_clefs (.dict es) = .dict out ∧
      countKey out (strLower a) = 1 ∧
      out.get (strLower a) =
        (lastLowerHit es (strLower a)).map deep_normalize_keys ∧
      out.length < es.length := by
  refine ⟨deepNormEntries es .nil, rfl, ?_, ?_, ?_⟩
  · refine countKey_eq_one _ _ (deepNormEntries_nodup es .nil (by simp [VDict.keys])) ?_
    rw [deepNormEntries_get]
    have := lastLowerHit_isSome es a ha
    cases hll : lastLowerHit es (strLower a) with
    | some w => simp
    | none =>
      rw [hll] at this
      simp at this
  · rw [deepNormEntries_get]
    cases hll : lastLowerHit es (strLower a) with
    | some w => simp
    | none =>
      have := lastLowerHit_isSome es a ha
      rw [hll] at this
      simp at this
  · have hkeys := deepNormEntries_keys es .nil
    have hlen : (deepNormEntries es .nil).length = (lowKeysAdded es []).length := by
      rw [← VDict.keys_length, hkeys]
      simp [VDict.keys]
    rw [hlen, ← VDict.keys_length es] at *
    rw [VDict.keys_length es]
    exact lowKeysAdded_length_lt es [] a b hab hlow ha hb

/-- Claim C9, witness: the theorem applied to a two-entry dict whose
keys Name and name collide; the surviving entry holds the value of the
later key name. -/
theorem normalisation_collision_witness :
    ∃ out, normalisation_casse_clefs
        (.dict (.cons "Name" (.int 1) (.cons "name" (.int 2) .nil))) = .dict out ∧
      countKey out (strLower "Name") = 1 ∧
      out.get (strLower "Name") =
        (lastLowerHit (.cons "Name" (.int 1) (.cons "name" (.int 2) .nil))
          (strLower "Name")).map deep_normalize_keys ∧
      out.length < (VDict.cons "Name" (.int 1) (.cons "name" (.int 2) .nil)).length :=
  normalisation_collision _ "Name" "name" (by decide) (by decide)
    (by decide) (by decide)

/-! ### Date conversion lemmas -/

theorem daysInMonth_le_31 (y m : Nat) : daysInMonth y m ≤ 31 := by
  unfold daysInMonth
  split_ifs <;> simp

theorem splitDash_no_dash (cs : List Char) (h : ¬('-' ∈ cs)) :
    splitDash cs = [cs] := by
  induction cs with
  | nil => rfl
  | cons c t ih =>
    simp at h
    rw [splitDash, if_neg (fun hh => h.1 hh.symm), ih h.2]

theorem validCalendarDate_iff (y m d : Nat) :
    validCalendarDate y m d = true ↔
      (1 ≤ y ∧ 1 ≤ m ∧ m ≤ 12 ∧ 1 ≤ d ∧ d ≤ daysInMonth y m) := by
  simp only [validCalendarDate, Bool.and_eq_true, decide_eq_true_eq]
  tauto

theorem format_iso_eq (s : String) :
    format_iso_date_to_ddmmyyyy s =
      (match isoDateFields s with
       | some (y, m, d) =>
         if validCalendarDate y m d then some (renderDDMMYYYY y m d) else none
       | none => none) := by
  unfold format_iso_date_to_ddmmyyyy isoDateFields
  cases hcd : containsDash s with
  | false =>
    have hall : ∀ x ∈ s.data, ¬x = '-' := by simpa [containsDash] using hcd
    have hnm : ¬('-' ∈ s.data) := fun hmem => hall '-' hmem rfl
    rw [splitDash_no_dash s.data hnm]
    simp
  | true =>
    simp only [hcd, Bool.true_eq_false, not_false_eq_true, ite_false]
    rcases hsd : splitDash s.data with _ | ⟨ys, _ | ⟨ms, _ | ⟨ds, _ | ⟨e4, t4⟩⟩⟩⟩
    · simp
    · simp
    · simp
    · simp only [yearField, monthField, dayField]
      by_cases hy : ys.length = 4 ∧ allDigits ys
      case neg =>
        have hcneg : ¬(ys.length = 4 ∧ allDigits ys = true ∧
            (ms.length = 1 ∨ ms.length = 2) ∧ allDigits ms = true ∧
            (ds.length = 1 ∨ ds.length = 2) ∧ allDigits ds = true) :=
          fun hh => hy ⟨hh.1, hh.2.1⟩
        rw [if_neg hy, if_neg hcneg]
        simp
      case pos =>
        rw [if_pos hy]
        by_cases hm2 : (ms.length = 1 ∨ ms.length = 2) ∧ allDigits ms
        case neg =>
          have hcneg : ¬(ys.length = 4 ∧ allDigits ys = true ∧
              (ms.length = 1 ∨ ms.length = 2) ∧ allDigits ms = true ∧
              (ds.length = 1 ∨ ds.length = 2) ∧ allDigits ds = true) :=
            fun hh => hm2 ⟨hh.2.2.1, hh.2.2.2.1⟩
          rw [if_neg hm2, if_neg hcneg]
          simp
        case pos =>
          rw [if_pos hm2]
          by_cases hd2 : (ds.length = 1 ∨ ds.length = 2) ∧ allDigits ds
          case neg =>
            have hcneg : ¬(ys.length = 4 ∧ allDigits ys = true ∧
                (ms.length = 1 ∨ ms.length = 2) ∧ allDigits ms = true ∧
                (ds.length = 1 ∨ ds.length = 2) ∧ allDigits ds = true) :=
              fun hh => hd2 ⟨hh.2.2.2.2.1, hh.2.2.2.2.2⟩
            rw [if_neg hd2, if_neg hcneg]
            by_cases hmv : 1 ≤ digitsToNat ms ∧ digitsToNat ms ≤ 12
            · rw [if_pos hmv]
              simp
            · rw [if_neg hmv]
              simp
          case pos =>
            have hcpos : (ys.length = 4 ∧ allDigits ys = true ∧
                (ms.length = 1 ∨ ms.length = 2) ∧ allDigits ms = true ∧
                (ds.length = 1 ∨ ds.length = 2) ∧ allDigits ds = true) :=
              ⟨hy.1, hy.2, hm2.1, hm2.2, hd2.1, hd2.2⟩
            rw [if_pos hd2, if_pos hcpos]
            have h31 := daysInMonth_le_31 (digitsToNat ys) (digitsToNat ms)
            by_cases hmv : 1 ≤ digitsToNat ms ∧ digitsToNat ms ≤ 12
            case neg =>
              rw [if_neg hmv]
              have hv : validCalendarDate (digitsToNat ys) (digitsToNat ms)
                  (digitsToNat ds) = false := by
                rw [Bool.eq_false_iff]
                intro hvt
                rcases (validCalendarDate_iff _ _ _).1 hvt with ⟨_, h1, h2, _, _⟩
                exact hmv ⟨h1, h2⟩
              simp [hv]
            case pos =>
              rw [if_pos hmv]
              by_cases hdv : 1 ≤ digitsToNat ds ∧ digitsToNat ds ≤ 31
              case neg =>
                rw [if_neg hdv]
                have hv : validCalendarDate (digitsToNat ys) (digitsToNat ms)
                    (digitsToNat ds) = false := by
                  rw [Bool.eq_false_iff]
                  intro hvt
                  rcases (validCalendarDate_iff _ _ _).1 hvt with ⟨_, _, _, h4, h5⟩
                  exact hdv ⟨h4, le_trans h5 h31⟩
                simp [hv]
              case pos =>
                rw [if_pos hdv]
                by_cases hfin : 1 ≤ digitsToNat ys ∧
                    digitsToNat ds ≤ daysInMonth (digitsToNat ys) (digitsToNat ms)
                · have hv : validCalendarDate (digitsToNat ys) (digitsToNat ms)
                      (digitsToNat ds) = true :=
                    (validCalendarDate_iff _ _ _).2
                      ⟨hfin.1, hmv.1, hmv.2, hdv.1, hfin.2⟩
                  simp [hv, hfin, renderDDMMYYYY]
                · have hv : validCalendarDate (digitsToNat ys) (digitsToNat ms)
                      (digitsToNat ds) = false := by
                    rw [Bool.eq_false_iff]
                    intro hvt
                    rcases (validCalendarDate_iff _ _ _).1 hvt with ⟨h1, _, _, _, h5⟩
                    exact hfin ⟨h1, h5⟩
                  simp [hv, hfin]
    · simp

theorem formatDateKey_get_ne (es : VDict) (k k2 : String) (h : k2 ≠ k) :
    (formatDateKey es k).get k2 = es.get k2 := by
  cases hg : es.get k with
  | none => simp [formatDateKey, hg]
  | some v =>
    cases v with
    | str s =>
      cases hf : format_iso_date_to_ddmmyyyy s with
      | some t =>
        simp [formatDateKey, hg, hf, VDict.get_insert_ne _ _ _ _ (Ne.symm h)]
      | none => simp [formatDateKey, hg, hf]
    | null => simp [formatDateKey, hg]
    | bool b => simp [formatDateKey, hg]
    | int n => simp [formatDateKey, hg]
    | float q => simp [formatDateKey, hg]
    | list xs => simp [formatDateKey, hg]
    | dict d => simp [formatDateKey, hg]

theorem formatDateKey_get_self (es : VDict) (k : String) :
    (formatDateKey es k).get k =
      match es.get k with
      | some (.str s) =>
        some (.str (match format_iso_date_to_ddmmyyyy s with
          | some t => t
          | none => s))
      | x => x := by
  cases hg : es.get k with
  | none => simp [formatDateKey, hg]
  | some v =>
    cases v with
    | str s =>
      cases hf : format_iso_date_to_ddmmyyyy s with
      | some t => simp [formatDateKey, hg, hf, VDict.get_insert_self]
      | none => simp [formatDateKey, hg, hf]
    | null => simp [formatDateKey, hg]
    | bool b => simp [formatDateKey, hg]
    | int n => simp [formatDateKey, hg]
    | float q => simp [formatDateKey, hg]
    | list xs => simp [formatDateKey, hg]
    | dict d => simp [formatDateKey, hg]

theorem formatDateKey_cases (d : VDict) (k : String) :
    (∀ s y m dd, d.get k = some (.str s) → isoDateFields s = some (y, m, dd) →
        validCalendarDate y m dd = true →
        (formatDateKey d k).get k = some (.str (renderDDMMYYYY y m dd))) ∧
    (∀ s, d.get k = some (.str s) → isoOk s = false →
        (formatDateKey d k).get k = some (.str s)) ∧
    (∀ v, d.get k = some v → (∀ s, v ≠ .str s) →
        (formatDateKey d k).get k = some v) ∧
    (d.get k = none → (formatDateKey d k).get k = none) := by
  refine ⟨?_, ?_, ?_, ?_⟩
  · intro s y m dd hg hf hv
    rw [formatDateKey_get_self, hg]
    have hfi : format_iso_date_to_ddmmyyyy s = some (renderDDMMYYYY y m dd) := by
      rw [format_iso_eq, hf]
      simp [hv]
    simp [hfi]
  · intro s hg hbad
    rw [formatDateKey_get_self, hg]
    have hfi : format_iso_date_to_ddmmyyyy s = none := by
      rw [format_iso_eq]
      cases hf : isoDateFields s with
      | none => simp
      | some t =>
        rcases t with ⟨y, m, dd⟩
        simp only [isoOk, hf] at hbad
        simp [hbad]
    simp [hfi]
  · intro v hg hns
    rw [formatDateKey_get_self, hg]
    cases v with
    | str s => exact absurd rfl (hns s)
    | null => rfl
    | bool b => rfl
    | int n => rfl
    | float q => rfl
    | list xs => rfl
    | dict dd => rfl
  · intro hg
    rw [formatDateKey_get_self, hg]

/-! ### Claim C6: date formatting -/

/-- Claim C6, counterexample: the string 2024-3-5 does not match the
YYYY-MM-DD pattern (month and day are not two digits), yet the code
converts it, because strptime also accepts one-digit month and day
fields; so the claimed only-if direction fails. -/
theorem format_dates_unpadded_cex :
    strictIsoShape "2024-3-5" = false ∧
    format_dates (.dict (.cons "last_maintenance_date" (.str "2024-3-5") .nil)) =
      .dict (.cons "last_maintenance_date" (.str "05/03/2024") .nil) ∧
    ("05/03/2024" : String) ≠ "2024-3-5" := by
  refine ⟨by decide, by decide, by decide⟩

/-- Claim C6 (amended): format_dates replaces the value of each of
last_maintenance_date and next_maintenance_due with its DD/MM/YYYY
rendering if and only if that value is a string of the shape
year-month-day with a four-digit year and one-or-two-digit month and
day denoting a valid calendar date (this is what strptime %Y-%m-%d
accepts; a zero pad on month and day is optional, not required); any
other value is left untouched, and all other keys are unchanged.
In particular 2024-03-05 becomes 05/03/2024 while 05/03/2024 and
not-a-date come back unchanged. -/
theorem format_dates_behaviour (es : VDict) :
    ∃ out, format_dates (.dict es) = .dict out ∧
      (∀ k, k ≠ "last_maintenance_date" → k ≠ "next_maintenance_due" →
          out.get k = es.get k) ∧
      (∀ k, k ∈ dateKeys →
        (∀ s y m d, es.get k = some (.str s) → isoDateFields s = some (y, m, d) →
            validCalendarDate y m d = true →
            out.get k = some (.str (renderDDMMYYYY y m d))) ∧
        (∀ s, es.get k = some (.str s) → isoOk s = false →
            out.get k = some (.str s)) ∧
        (∀ v, es.get k = some v → (∀ s, v ≠ .str s) → out.get k = some v) ∧
        (es.get k = none → out.get k = none)) ∧
      format_dates (.dict (.cons "last_maintenance_date" (.str "2024-03-05") .nil)) =
        .dict (.cons "last_maintenance_date" (.str "05/03/2024") .nil) ∧
      format_dates (.dict (.cons "last_maintenance_date" (.str "05/03/2024") .nil)) =
        .dict (.cons "last_maintenance_date" (.str "05/03/2024") .nil) ∧
      format_dates (.dict (.cons "last_maintenance_date" (.str "not-a-date") .nil)) =
        .dict (.cons "last_maintenance_date" (.str "not-a-date") .nil) := by
  refine ⟨formatDateKey (formatDateKey es "last_maintenance_date")
    "next_maintenance_due", rfl, ?_, ?_, by decide, by decide, by decide⟩
  · intro k h1 h2
    rw [formatDateKey_get_ne _ _ _ h2, formatDateKey_get_ne _ _ _ h1]
  · intro k hk
    have hne : ("last_maintenance_date" : String) ≠ "next_maintenance_due" := by decide
    simp only [dateKeys, List.mem_cons, List.mem_singleton, List.not_mem_nil,
      or_false] at hk
    rcases hk with rfl | rfl
    · have hfix : (formatDateKey (formatDateKey es "last_maintenance_date")
          "next_maintenance_due").get "last_maintenance_date" =
          (formatDateKey es "last_maintenance_date").get "last_maintenance_date" :=
        formatDateKey_get_ne _ _ _ hne
      have hc := formatDateKey_cases es "last_maintenance_date"
      refine ⟨?_, ?_, ?_, ?_⟩
      · intro s y m d hg hf hv
        rw [hfix]
        exact hc.1 s y m d hg hf hv
      · intro s hg hbad
        rw [hfix]
        exact hc.2.1 s hg hbad
      · intro v hg hns
        rw [hfix]
        exact hc.2.2.1 v hg hns
      · intro hg
        rw [hfix]
        exact hc.2.2.2 hg
    · have hmid : (formatDateKey es "last_maintenance_date").get
          "next_maintenance_due" = es.get "next_maintenance_due" :=
        formatDateKey_get_ne _ _ _ (Ne.symm hne)
      have hc := formatDateKey_cases (formatDateKey es "last_maintenance_date")
        "next_maintenance_due"
      refine ⟨?_, ?_, ?_, ?_⟩
      · intro s y m d hg hf hv
        exact hc.1 s y m d (hmid.trans hg) hf hv
      · intro s hg hbad
        exact hc.2.1 s (hmid.trans hg) hbad
      · intro v hg hns
        exact hc.2.2.1 v (hmid.trans hg) hns
      · intro hg
        exact hc.2.2.2 (hmid.trans hg)

/-- Claim C6, witness: the amended theorem applied at a single-entry
record carrying 2024-03-05, instantiating the conversion case. -/
theorem format_dates_behaviour_witness :
    ∃ out, format_dates (.dict (.cons "last_maintenance_date"
        (.str "2024-03-05") .nil)) = .dict out ∧
      out.get "last_maintenance_date" =
        some (.str (renderDDMMYYYY 2024 3 5)) := by
  rcases format_dates_behaviour
      (.cons "last_maintenance_date" (.str "2024-03-05") .nil) with
    ⟨out, hout, _, hdk, _⟩
  refine ⟨out, hout, ?_⟩
  exact (hdk "last_maintenance_date" (by decide)).1 "2024-03-05" 2024 3 5
    (by decide) (by decide) (by decide)

/-! ### Mileage conversion lemmas -/

theorem convertField_none (sp : VDict) (mk metk : String)
    (h : parsedMile sp mk = none) : convertField sp mk metk = (sp, false) := by
  unfold parsedMile at h
  cases hg : sp.get mk with
  | none => simp [convertField, hg]
  | some v =>
    rw [hg] at h
    simp at h
    simp [convertField, hg, h]

theorem convertField_some (sp : VDict) (mk metk : String) (q : ℚ)
    (h : parsedMile sp mk = some q) :
    convertField sp mk metk =
      ((sp.erase mk).insert metk (.float (q * METERS_PER_MILE)), true) := by
  unfold parsedMile at h
  cases hg : sp.get mk with
  | none =>
    rw [hg] at h
    simp at h
  | some v =>
    rw [hg] at h
    simp at h
    simp [convertField, hg, h]

theorem convert_shape (es : VDict) :
    convert_miles_to_meters (.dict es) = .dict es ∨
      ∃ sp2, convert_miles_to_meters (.dict es) =
        .dict (es.insert "specifications" (.dict sp2)) := by
  cases hg : es.get "specifications" with
  | none =>
    left
    simp [convert_miles_to_meters, hg, convertField, VDict.get]
  | some v =>
    right
    simp only [convert_miles_to_meters, hg]
    split_ifs with h1 h2
    · exact ⟨_, rfl⟩
    · exact ⟨_, rfl⟩
    · simp at h2

/-! ### Claim C7: mileage conversion -/

/-- Claim C7: under specifications, each of depth_capacity_miles and
drilling_speed_miles_per_day that parses as a number (numeric types,
booleans being Python ints, or numeric strings with whitespace
tolerated) is removed and replaced by depth_capacity_meters resp.
drilling_speed_meters_per_day holding the parsed value times 1609.0;
on parse failure the mile key is left untouched and the meter key is
not added; top-level keys other than specifications pass through
unchanged; an absent specifications key makes the step a no-op; and
the concrete example with depth_capacity_miles "2" maps to
depth_capacity_meters 3218.0. -/
theorem convert_miles_behaviour (es : VDict) :
    (es.get "specifications" = none →
        convert_miles_to_meters (.dict es) = .dict es) ∧
    (∀ k, k ≠ "specifications" →
        topGet (convert_miles_to_meters (.dict es)) k = es.get k) ∧
    (∀ sp, es.get "specifications" = some (.dict sp) → sp.keys.Nodup →
      ∃ sp2, convert_miles_to_meters (.dict es) =
          .dict (es.insert "specifications" (.dict sp2)) ∧
        (∀ q, parsedMile sp "depth_capacity_miles" = some q →
            sp2.get "depth_capacity_miles" = none ∧
            sp2.get "depth_capacity_meters" = some (.float (q * METERS_PER_MILE))) ∧
        (parsedMile sp "depth_capacity_miles" = none →
            sp2.get "depth_capacity_miles" = sp.get "depth_capacity_miles" ∧
            sp2.get "depth_capacity_meters" = sp.get "depth_capacity_meters") ∧
        (∀ q, parsedMile sp "drilling_speed_miles_per_day" = some q →
            sp2.get "drilling_speed_miles_per_day" = none ∧
            sp2.get "drilling_speed_meters_per_day" =
              some (.float (q * METERS_PER_MILE))) ∧
        (parsedMile sp "drilling_speed_miles_per_day" = none →
            sp2.get "drilling_speed_miles_per_day" =
              sp.get "drilling_speed_miles_per_day" ∧
            sp2.get "drilling_speed_meters_per_day" =
              sp.get "drilling_speed_meters_per_day")) ∧
    convert_miles_to_meters (.dict (.cons "specifications"
        (.dict (.cons "depth_capacity_miles" (.str "2") .nil)) .nil)) =
      .dict (.cons "specifications"
        (.dict (.cons "depth_capacity_meters" (.float 3218) .nil)) .nil) := by
  refine ⟨?_, ?_, ?_, ?_⟩
  case refine_4 =>
    have hq : to_float (.str "2") = some 2 := by with_unfolding_all decide
    have h2 : (2 : ℚ) * METERS_PER_MILE = 3218 := by norm_num [METERS_PER_MILE]
    simp [convert_miles_to_meters, VDict.get, convertField, hq, VDict.erase,
      VDict.insert, h2]
  · intro hg
    simp [convert_miles_to_meters, hg, convertField, VDict.get]
  · intro k hk
    rcases convert_shape es with h | ⟨sp2, h⟩
    · simp [topGet, h]
    · simp [topGet, h, VDict.get_insert_ne _ _ _ _ (Ne.symm hk)]
  · intro sp hg hnd
    have hdm_ne : ("depth_capacity_meters" : String) ≠ "depth_capacity_miles" := by decide
    have hsm_ne : ("drilling_speed_meters_per_day" : String) ≠
      "drilling_speed_miles_per_day" := by decide
    refine ⟨(convertField (convertField sp "depth_capacity_miles"
      "depth_capacity_meters").1 "drilling_speed_miles_per_day"
      "drilling_speed_meters_per_day").1, ?_, ?_⟩
    · simp only [convert_miles_to_meters, hg]
      split_ifs with h1 h2
      · rfl
      · rfl
      · simp at h2
    · set p1 := convertField sp "depth_capacity_miles" "depth_capacity_meters" with hp1
      have hgsm : p1.1.get "drilling_speed_miles_per_day" =
          sp.get "drilling_speed_miles_per_day" := by
        cases hdm : parsedMile sp "depth_capacity_miles" with
        | none => rw [hp1, convertField_none _ _ _ hdm]
        | some q =>
          rw [hp1, convertField_some _ _ _ _ hdm]
          simp only
          rw [VDict.get_insert_ne _ _ _ _ (by decide),
            VDict.get_erase_ne _ _ _ (by decide)]
      have hgsmet : p1.1.get "drilling_speed_meters_per_day" =
          sp.get "drilling_speed_meters_per_day" := by
        cases hdm : parsedMile sp "depth_capacity_miles" with
        | none => rw [hp1, convertField_none _ _ _ hdm]
        | some q =>
          rw [hp1, convertField_some _ _ _ _ hdm]
          simp only
          rw [VDict.get_insert_ne _ _ _ _ (by decide),
            VDict.get_erase_ne _ _ _ (by decide)]
      have hpm_sm : parsedMile p1.1 "drilling_speed_miles_per_day" =
          parsedMile sp "drilling_speed_miles_per_day" := by
        unfold parsedMile
        rw [hgsm]
      have hnd1 : p1.1.keys.Nodup := by
        cases hdm : parsedMile sp "depth_capacity_miles" with
        | none =>
          rw [hp1, convertField_none _ _ _ hdm]
          exact hnd
        | some q =>
          rw [hp1, convertField_some _ _ _ _ hdm]
          exact insert_keys_nodup _ _ _
            ((VDict.keys_erase_sublist sp "depth_capacity_miles").nodup hnd)
      refine ⟨?_, ?_, ?_, ?_⟩
      · intro q hdm
        have hd1 : p1.1.get "depth_capacity_miles" = none := by
          rw [hp1, convertField_some _ _ _ _ hdm]
          simp only
          rw [VDict.get_insert_ne _ _ _ _ hdm_ne,
            VDict.get_erase_self _ _ hnd]
        have hd2 : p1.1.get "depth_capacity_meters" =
            some (.float (q * METERS_PER_MILE)) := by
          rw [hp1, convertField_some _ _ _ _ hdm]
          exact VDict.get_insert_self _ _ _
        cases hsm : parsedMile sp "drilling_speed_miles_per_day" with
        | none =>
          rw [convertField_none _ _ _ (hpm_sm.trans hsm)]
          exact ⟨hd1, hd2⟩
        | some q2 =>
          rw [convertField_some _ _ _ _ (hpm_sm.trans hsm)]
          simp only
          rw [VDict.get_insert_ne _ _ _ _ (by decide),
            VDict.get_erase_ne _ _ _ (by decide),
            VDict.get_insert_ne _ _ _ _ (by decide),
            VDict.get_erase_ne _ _ _ (by decide)]
          exact ⟨hd1, hd2⟩
      · intro hdm
        have hd1 : p1.1.get "depth_capacity_miles" =
            sp.get "depth_capacity_miles" := by
          rw [hp1, convertField_none _ _ _ hdm]
        have hd2 : p1.1.get "depth_capacity_meters" =
            sp.get "depth_capacity_meters" := by
          rw [hp1, convertField_none _ _ _ hdm]
        cases hsm : parsedMile sp "drilling_speed_miles_per_day" with
        | none =>
          rw [convertField_none _ _ _ (hpm_sm.trans hsm)]
          exact ⟨hd1, hd2⟩
        | some q2 =>
          rw [convertField_some _ _ _ _ (hpm_sm.trans hsm)]
          simp only
          rw [VDict.get_insert_ne _ _ _ _ (by decide),
            VDict.get_erase_ne _ _ _ (by decide),
            VDict.get_insert_ne _ _ _ _ (by decide),
            VDict.get_erase_ne _ _ _ (by decide)]
          exact ⟨hd1, hd2⟩
      · intro q hsm
        rw [convertField_some _ _ _ _ (hpm_sm.trans hsm)]
        simp only
        constructor
        · rw [VDict.get_insert_ne _ _ _ _ hsm_ne,
            VDict.get_erase_self _ _ hnd1]
        · exact VDict.get_insert_self _ _ _
      · intro hsm
        rw [convertField_none _ _ _ (hpm_sm.trans hsm)]
        exact ⟨hgsm, hgsmet⟩

/-- Claim C7, witness: the theorem applied at the concrete record of
the claim, instantiating the successful depth conversion case. -/
theorem convert_miles_behaviour_witness :
    ∃ sp2, convert_miles_to_meters (.dict (.cons "specifications"
        (.dict (.cons "depth_capacity_miles" (.str "2") .nil)) .nil)) =
      .dict ((VDict.cons "specifications"
        (.dict (.cons "depth_capacity_miles" (.str "2") .nil)) .nil).insert
          "specifications" (.dict sp2)) ∧
      sp2.get "depth_capacity_miles" = none ∧
      sp2.get "depth_capacity_meters" = some (.float (2 * METERS_PER_MILE)) := by
  rcases (convert_miles_behaviour (.cons "specifications"
      (.dict (.cons "depth_capacity_miles" (.str "2") .nil)) .nil)).2.2.1
      (.cons "depth_capacity_miles" (.str "2") .nil) rfl (by decide) with
    ⟨sp2, hs, hd, _⟩
  exact ⟨sp2, hs, hd 2 (by with_unfolding_all decide)⟩

/-! ### Pipeline runner lemmas -/

theorem runPipeline_eq_trace (file : String) (steps : List PStep) (v : Value) :
    runPipeline file steps v = (runPipelineTrace file steps v).2 := by
  induction steps generalizing v with
  | nil => rfl
  | cons s rest ih =>
    simp only [runPipeline, runPipelineTrace]
    cases s.fn v with
    | raise e => rfl
    | ret w =>
      by_cases hd : isDictV w
      · simp [hd, ih]
      · simp [hd]

theorem runPipelineTrace_ok (file : String) (steps : List PStep) (v : Value)
    (w : Value) (h : (runPipelineTrace file steps v).2 = .ok w) :
    (runPipelineTrace file steps v).1 = steps.map PStep.name ∧
      applyAll steps v = some w := by
  induction steps generalizing v with
  | nil =>
    simp only [runPipelineTrace] at h ⊢
    cases h
    simp [applyAll]
  | cons s rest ih =>
    simp only [runPipelineTrace] at h ⊢
    cases hso : s.fn v with
    | raise e =>
      rw [hso] at h
      simp at h
    | ret w0 =>
      rw [hso] at h
      by_cases hd : isDictV w0
      · simp only [hd, if_pos] at h ⊢
        rcases ih w0 h with ⟨h1, h2⟩
        simp [h1, applyAll, hso, h2, hd]
      · simp [hd] at h

theorem runPipelineTrace_err (file : String) (steps : List PStep) (v : Value)
    (err : PipeErr) (h : (runPipelineTrace file steps v).2 = .error err) :
    ∃ k, ∃ hk : k < steps.length,
      (runPipelineTrace file steps v).1 = (steps.map PStep.name).take (k + 1) ∧
      ∃ u, applyAll (steps.take k) v = some u ∧
        (∀ j, j < k → ∃ w, applyAll (steps.take (j + 1)) v = some w ∧
          isDictV w = true) ∧
        ((∃ e, (steps.get ⟨k, hk⟩).fn u = .raise e ∧
            err = ⟨(steps.get ⟨k, hk⟩).name, file, some e⟩) ∨
         (∃ w, (steps.get ⟨k, hk⟩).fn u = .ret w ∧ isDictV w = false ∧
            err = ⟨(steps.get ⟨k, hk⟩).name, file, none⟩)) := by
  induction steps generalizing v with
  | nil => simp [runPipelineTrace] at h
  | cons s rest ih =>
    simp only [runPipelineTrace] at h ⊢
    cases hso : s.fn v with
    | raise e =>
      rw [hso] at h
      simp only [Except.error.injEq] at h
      refine ⟨0, Nat.succ_pos _, by simp, v, by simp [applyAll], ?_, ?_⟩
      · intro j hj
        omega
      · exact .inl ⟨e, hso, h.symm⟩
    | ret w0 =>
      rw [hso] at h
      by_cases hd : isDictV w0
      · simp only [hd, if_pos] at h ⊢
        rcases ih w0 h with ⟨k, hk, htr, u, hap, hdicts, hfail⟩
        refine ⟨k + 1, Nat.succ_lt_succ hk, ?_, u, ?_, ?_, ?_⟩
        · simp only [List.map_cons, List.take_succ_cons, List.length_cons]
          simp [htr]
        · simpa [applyAll, hso] using hap
        · intro j hj
          cases j with
          | zero => exact ⟨w0, by simp [applyAll, hso], hd⟩
          | succ j2 =>
            rcases hdicts j2 (by omega) with ⟨w, hw, hwd⟩
            exact ⟨w, by simpa [applyAll, hso] using hw, hwd⟩
        · exact hfail
      · dsimp only at h ⊢
        rw [if_neg hd] at h
        simp only [Except.error.injEq] at h
        rw [if_neg hd]
        refine ⟨0, Nat.succ_pos _, by simp, v, by simp [applyAll], ?_, ?_⟩
        · intro j hj
          omega
        · exact .inr ⟨w0, hso, by simpa using hd, h.symm⟩

theorem runPipelineTrace_fails (file : String) (steps : List PStep) (v : Value)
    (k : Nat) (hk : k < steps.length) (u : Value)
    (hap : applyAll (steps.take k) v = some u)
    (hdicts : ∀ j, j < k → ∃ w, applyAll (steps.take (j + 1)) v = some w ∧
      isDictV w = true)
    (hfail : (∃ e, (steps.get ⟨k, hk⟩).fn u = .raise e) ∨
      (∃ w, (steps.get ⟨k, hk⟩).fn u = .ret w ∧ isDictV w = false)) :
    ∃ err, (runPipelineTrace file steps v).2 = .error err := by
  induction steps generalizing v k with
  | nil => exact absurd hk (by simp)
  | cons s rest ih =>
    cases k with
    | zero =>
      have huv : u = v := by
        rw [List.take_zero] at hap
        simpa [applyAll] using hap.symm
      subst huv
      rcases hfail with ⟨e, he⟩ | ⟨w, hw, hwd⟩
      · have he2 : s.fn u = .raise e := he
        exact ⟨⟨s.name, file, some e⟩, by simp [runPipelineTrace, he2]⟩
      · have hw2 : s.fn u = .ret w := hw
        exact ⟨⟨s.name, file, none⟩, by simp [runPipelineTrace, hw2, hwd]⟩
    | succ k2 =>
      rcases hdicts 0 (Nat.succ_pos _) with ⟨w, hw, hwd⟩
      cases hso : s.fn v with
      | raise e =>
        rw [List.take_succ_cons, List.take_zero] at hw
        simp [applyAll, hso] at hw
      | ret w0 =>
        rw [List.take_succ_cons, List.take_zero] at hw
        simp only [applyAll, hso, Option.some.injEq] at hw
        subst hw
        have hk2 : k2 < rest.length := by
          simpa using hk
        rcases ih w0 k2 hk2
            (by simpa [applyAll, hso] using hap)
            (fun j hj => by
              rcases hdicts (j + 1) (by omega) with ⟨w2, hw2, hw2d⟩
              exact ⟨w2, by simpa [applyAll, hso] using hw2, hw2d⟩)
            hfail with ⟨err, herr⟩
        exact ⟨err, by simp [runPipelineTrace, hso, hwd, herr]⟩


/-! ### Claim C2: pipeline failure isolation -/

/-- Claim C2: running the pipeline raises PipelineStepError if and
only if some step raises (the error then carrying that step name and
the file name, with the exception as its cause) or some step returns a
non-dict (the error then carrying step and file with no cause); the
invocation trace is exactly the steps up to and including the first
failing one, each invoked once (so the failing step is never retried
and processing stops there); and on success the result is the
left-to-right sequential application of all the steps. -/
theorem runPipeline_characterization (file : String) (steps : List PStep)
    (v : Value) :
    runPipeline file steps v = (runPipelineTrace file steps v).2 ∧
    (∀ w, (runPipelineTrace file steps v).2 = .ok w →
      (runPipelineTrace file steps v).1 = steps.map PStep.name ∧
      applyAll steps v = some w) ∧
    (∀ err, (runPipelineTrace file steps v).2 = .error err →
      ∃ k, ∃ hk : k < steps.length,
        (runPipelineTrace file steps v).1 = (steps.map PStep.name).take (k + 1) ∧
        ∃ u, applyAll (steps.take k) v = some u ∧
          (∀ j, j < k → ∃ w, applyAll (steps.take (j + 1)) v = some w ∧
            isDictV w = true) ∧
          ((∃ e, (steps.get ⟨k, hk⟩).fn u = .raise e ∧
              err = ⟨(steps.get ⟨k, hk⟩).name, file, some e⟩) ∨
           (∃ w, (steps.get ⟨k, hk⟩).fn u = .ret w ∧ isDictV w = false ∧
              err = ⟨(steps.get ⟨k, hk⟩).name, file, none⟩))) ∧
    (∀ k, ∀ hk : k < steps.length, ∀ u, applyAll (steps.take k) v = some u →
      (∀ j, j < k → ∃ w, applyAll (steps.take (j + 1)) v = some w ∧
        isDictV w = true) →
      ((∃ e, (steps.get ⟨k, hk⟩).fn u = .raise e) ∨
       (∃ w, (steps.get ⟨k, hk⟩).fn u = .ret w ∧ isDictV w = false)) →
      ∃ err, (runPipelineTrace file steps v).2 = .error err) :=
  ⟨runPipeline_eq_trace file steps v,
   fun w h => runPipelineTrace_ok file steps v w h,
   fun err h => runPipelineTrace_err file steps v err h,
   fun k hk u hap hdicts hfail =>
     runPipelineTrace_fails file steps v k hk u hap hdicts hfail⟩

/-- Claim C2, witness: the characterization applied to a two-step
pipeline whose second step raises, at a concrete record. -/
theorem runPipeline_characterization_witness :
    runPipeline "f.json" demoSteps (.dict .nil) =
      (runPipelineTrace "f.json" demoSteps (.dict .nil)).2 ∧
    ∃ err, (runPipelineTrace "f.json" demoSteps (.dict .nil)).2 = .error err := by
  refine ⟨(runPipeline_characterization "f.json" demoSteps (.dict .nil)).1, ?_⟩
  refine (runPipeline_characterization "f.json" demoSteps (.dict .nil)).2.2.2
    1 (by decide) (.dict .nil) (by decide) ?_ (.inl ⟨"ValueError", by decide⟩)
  intro j hj
  have hj0 : j = 0 := by omega
  subst hj0
  exact ⟨.dict .nil, by decide, by decide⟩


/-! ### Batch driver lemmas -/

theorem mainLoop_all_classified (outDir : String) (steps : List PStep)
    (jobs : List FileJob) :
    ∀ s f done,
      (∀ j ∈ jobs, isUnexpectedOutcome
        (processFile j.name outDir j.rd steps j.wfail) = false) →
      mainLoop outDir steps jobs s f done =
        .ok (s + jobs.countP
               (fun j => isOkOutcome (processFile j.name outDir j.rd steps j.wfail)),
             f + jobs.countP
               (fun j => !isOkOutcome (processFile j.name outDir j.rd steps j.wfail)),
             done.reverse ++ jobs.map FileJob.name) := by
  induction jobs with
  | nil =>
    intro s f done h
    simp [mainLoop]
  | cons j rest ih =>
    intro s f done h
    have hj := h j (List.mem_cons_self _ _)
    have hrest := fun i hi => h i (List.mem_cons_of_mem _ hi)
    cases hpf : processFile j.name outDir j.rd steps j.wfail with
    | ok u =>
      simp only [mainLoop, hpf]
      rw [ih (s + 1) f (j.name :: done) hrest]
      simp [List.countP_cons, hpf, isOkOutcome]
      omega
    | error e =>
      cases e with
      | pse pe =>
        simp only [mainLoop, hpf]
        rw [ih s (f + 1) (j.name :: done) hrest]
        simp [List.countP_cons, hpf, isOkOutcome]
        omega
      | fpe msg =>
        simp only [mainLoop, hpf]
        rw [ih s (f + 1) (j.name :: done) hrest]
        simp [List.countP_cons, hpf, isOkOutcome]
        omega
      | unexpected t =>
        rw [hpf] at hj
        simp [isUnexpectedOutcome] at hj

theorem mainLoop_abort (outDir : String) (steps : List PStep) :
    ∀ (pre : List FileJob) (j : FileJob) (post : List FileJob) s f done t,
      (∀ i ∈ pre, isUnexpectedOutcome
        (processFile i.name outDir i.rd steps i.wfail) = false) →
      processFile j.name outDir j.rd steps j.wfail = .error (.unexpected t) →
      mainLoop outDir steps (pre ++ j :: post) s f done =
        .error (.unexpected t, done.reverse ++ pre.map FileJob.name ++ [j.name]) := by
  intro pre
  induction pre with
  | nil =>
    intro j post s f done t hpre hj
    simp [mainLoop, hj]
  | cons p pre2 ih =>
    intro j post s f done t hpre hj
    have hp := hpre p (List.mem_cons_self _ _)
    have hrest := fun i hi => hpre i (List.mem_cons_of_mem _ hi)
    cases hpf : processFile p.name outDir p.rd steps p.wfail with
    | ok u =>
      simp only [List.cons_append, mainLoop, hpf, List.append_eq]
      rw [ih j post (s + 1) f (p.name :: done) t hrest hj]
      simp [List.append_assoc]
    | error e =>
      cases e with
      | pse pe =>
        simp only [List.cons_append, mainLoop, hpf, List.append_eq]
        rw [ih j post s (f + 1) (p.name :: done) t hrest hj]
        simp [List.append_assoc]
      | fpe msg =>
        simp only [List.cons_append, mainLoop, hpf, List.append_eq]
        rw [ih j post s (f + 1) (p.name :: done) t hrest hj]
        simp [List.append_assoc]
      | unexpected t2 =>
        rw [hpf] at hp
        simp [isUnexpectedOutcome] at hp

/-! ### Claim C3: batch isolation -/

/-- Claim C3: the per-file loop of main counts a success and moves on
when process_file succeeds; on PipelineStepError or
FileProcessingError it counts a failure and proceeds to the next file,
so every file of the batch is attempted when all failures are
classified; on any other exception it re-raises, aborting the batch
right there (later files are not attempted).  In the concrete
three-file scenario where file 2 holds invalid JSON, files 1 and 3
succeed, file 2 is counted as the one failure (its read failure being
wrapped as a FileProcessingError), and the run completes. -/
theorem mainLoop_batch_isolation (outDir : String) (steps : List PStep) :
    (∀ jobs s f done,
      (∀ j ∈ jobs, isUnexpectedOutcome
        (processFile j.name outDir j.rd steps j.wfail) = false) →
      mainLoop outDir steps jobs s f done =
        .ok (s + jobs.countP
               (fun j => isOkOutcome (processFile j.name outDir j.rd steps j.wfail)),
             f + jobs.countP
               (fun j => !isOkOutcome (processFile j.name outDir j.rd steps j.wfail)),
             done.reverse ++ jobs.map FileJob.name)) ∧
    (∀ pre (j : FileJob) post s f done t,
      (∀ i ∈ pre, isUnexpectedOutcome
        (processFile i.name outDir i.rd steps i.wfail) = false) →
      processFile j.name outDir j.rd steps j.wfail = .error (.unexpected t) →
      mainLoop outDir steps (pre ++ j :: post) s f done =
        .error (.unexpected t, done.reverse ++ pre.map FileJob.name ++ [j.name])) ∧
    mainLoop "out" pipelineSteps demoJobs 0 0 [] =
      .ok (2, 1, ["drilling_machine_1.json", "drilling_machine_2.json",
        "drilling_machine_3.json"]) ∧
    processFile "drilling_machine_2.json" "out" .badJSON pipelineSteps none =
      .error (.fpe "Invalid JSON in drilling_machine_2.json") := by
  refine ⟨fun jobs s f done h =>
      mainLoop_all_classified outDir steps jobs s f done h,
    fun pre j post s f done t hpre hj =>
      mainLoop_abort outDir steps pre j post s f done t hpre hj, ?_, rfl⟩
  rfl

/-- Claim C3, witness: the classified-failures conjunct applied at the
concrete three-job batch. -/
theorem mainLoop_batch_isolation_witness :
    mainLoop "out" pipelineSteps demoJobs 0 0 [] =
      .ok (0 + demoJobs.countP (fun j => isOkOutcome
             (processFile j.name "out" j.rd pipelineSteps j.wfail)),
           0 + demoJobs.countP (fun j => !isOkOutcome
             (processFile j.name "out" j.rd pipelineSteps j.wfail)),
           List.reverse [] ++ demoJobs.map FileJob.name) :=
  (mainLoop_batch_isolation "out" pipelineSteps).1 demoJobs 0 0 [] (by decide)


/-! ### Atomic write lemmas -/

theorem foldl_writeChunks (chunks : List String) (s : FS) :
    ((chunks.map WOp.writeChunk).foldl applyWOp s) =
      { s with tmp := s.tmp.map (fun t => t ++ strConcat chunks) } := by
  induction chunks generalizing s with
  | nil =>
    cases s with
    | mk out tmp =>
      cases tmp with
      | none => simp [strConcat]
      | some t => simp [strConcat]
  | cons c cs ih =>
    simp only [List.map_cons, List.foldl_cons]
    rw [ih]
    cases s with
    | mk out tmp =>
      cases tmp with
      | none => simp [applyWOp]
      | some t => simp [applyWOp, strConcat, String.append_assoc]

theorem writeOps_length (chunks : List String) :
    (writeOps chunks).length = chunks.length + 4 := by
  simp [writeOps]

theorem empty_string_append (x : String) : ("" : String) ++ x = x := rfl

theorem writeOps_take_fold (chunks : List String) (s0 : FS) (k : Nat)
    (hk : k ≤ chunks.length + 3) :
    ((writeOps chunks).take k).foldl applyWOp s0 =
      if k = 0 then s0
      else { s0 with tmp := some (strConcat (chunks.take (k - 1))) } := by
  cases k with
  | zero => simp
  | succ k2 =>
    rw [if_neg (Nat.succ_ne_zero k2)]
    simp only [writeOps, List.take_succ_cons, List.foldl_cons]
    rw [List.take_append_eq_append_take, List.foldl_append]
    have hmt : (List.map WOp.writeChunk chunks).take k2 =
        (chunks.take k2).map WOp.writeChunk := by
      rw [List.map_take]
    rw [hmt, foldl_writeChunks]
    have hs1 : ({ applyWOp s0 WOp.mkstemp with
        tmp := (applyWOp s0 WOp.mkstemp).tmp.map
          (fun t => t ++ strConcat (chunks.take k2)) } : FS) =
        { s0 with tmp := some (strConcat (chunks.take k2)) } := by
      simp [applyWOp, empty_string_append]
    rw [hs1]
    have hm2 : k2 - (List.map WOp.writeChunk chunks).length ≤ 2 := by
      simp only [List.length_map]
      omega
    rcases hm : k2 - (List.map WOp.writeChunk chunks).length with _ | _ | _ | m3
    · simp
    · simp [applyWOp]
    · simp [applyWOp]
    · omega

theorem writeOps_fold_full (chunks : List String) (s0 : FS) :
    (writeOps chunks).foldl applyWOp s0 = ⟨some (strConcat chunks), none⟩ := by
  simp only [writeOps, List.foldl_cons]
  rw [List.foldl_append, foldl_writeChunks]
  simp [applyWOp, empty_string_append]

theorem fsTrace_mem (ops : List WOp) :
    ∀ (s : FS) (x : FS), x ∈ fsTrace s ops →
      ∃ k, k ≤ ops.length ∧ x = (ops.take k).foldl applyWOp s := by
  induction ops with
  | nil =>
    intro s x h
    simp [fsTrace] at h
    exact ⟨0, by simp, by simp [h]⟩
  | cons op rest ih =>
    intro s x h
    simp only [fsTrace, List.mem_cons] at h
    rcases h with rfl | h
    · exact ⟨0, by simp, by simp⟩
    · rcases ih (applyWOp s op) x h with ⟨k, hk, rfl⟩
      exact ⟨k + 1, by simpa using hk, by simp⟩

theorem cleanupFS_out (s : FS) (b : Bool) : (cleanupFS s b).out = s.out := by
  unfold cleanupFS
  split_ifs <;> rfl

theorem cleanupFS_tmp (s : FS) : (cleanupFS s false).tmp = none := by
  unfold cleanupFS
  by_cases hs : s.tmp.isSome
  · simp [hs]
  · simp [hs]
    exact Option.not_isSome_iff_eq_none.1 hs


/-! ### Claim C1: atomic durable write -/

/-- Claim C1: the write phase of process_file creates its temp file in
the same directory as the final output path, the operation sequence
flushes and fsyncs before the atomic replace, and along every
(possibly failure-interrupted) run the final output path only ever
holds its prior content or the complete new content: never a partially
written state.  On an uninterrupted run the output path ends up
holding exactly the complete serialized content (here quantified over
any serialized content and any chunking of it) and the temp file is
gone. -/
theorem process_file_atomic_write (outDir inName rand : String)
    (content : String) (chunks : List String) (hch : strConcat chunks = content)
    (s0 : FS) (fail : Option WriteFail)
    (hfail : ∀ n c, fail = some (n, c) → n < (writeOps chunks).length)
    (cleanupFails : Bool) :
    (tmpPath outDir inName rand).dir = (outPath outDir inName).dir ∧
    (writeOps chunks).get? (chunks.length + 2) = some .fsync ∧
    (writeOps chunks).get? (chunks.length + 3) = some .replace ∧
    (∀ x ∈ fsTrace s0 (executedOps chunks fail),
        x.out = s0.out ∨ x.out = some content) ∧
    ((writeFinalFS s0 chunks fail cleanupFails).out = s0.out ∨
      (writeFinalFS s0 chunks fail cleanupFails).out = some content) ∧
    (fail = none → writeFinalFS s0 chunks none cleanupFails =
      ⟨some content, none⟩) := by
  have hfsync : (writeOps chunks).get? (chunks.length + 2) = some .fsync := by
    rw [writeOps, List.get?_cons_succ,
      List.get?_append_right (by simp)]
    simp
  have hreplace : (writeOps chunks).get? (chunks.length + 3) = some .replace := by
    rw [writeOps, List.get?_cons_succ,
      List.get?_append_right (by simp)]
    simp
  have hout_of_take : ∀ m, m ≤ chunks.length + 3 →
      (((writeOps chunks).take m).foldl applyWOp s0).out = s0.out := by
    intro m hm
    rw [writeOps_take_fold chunks s0 m hm]
    split_ifs <;> rfl
  have hinv : ∀ x ∈ fsTrace s0 (executedOps chunks fail),
      x.out = s0.out ∨ x.out = some content := by
    intro x hx
    rcases fail with _ | ⟨n, c⟩
    · rcases fsTrace_mem _ _ _ hx with ⟨k, hk, rfl⟩
      simp only [executedOps] at hk ⊢
      rw [writeOps_length] at hk
      by_cases hk3 : k ≤ chunks.length + 3
      · exact .inl (hout_of_take k hk3)
      · have hk4 : k = chunks.length + 4 := by omega
        have : (writeOps chunks).take k = writeOps chunks :=
          List.take_of_length_le (by rw [writeOps_length]; omega)
        rw [this, writeOps_fold_full, hch]
        exact .inr rfl
    · rcases fsTrace_mem _ _ _ hx with ⟨k, hk, rfl⟩
      have hn := hfail n c rfl
      rw [writeOps_length] at hn
      simp only [executedOps, List.take_take] at *
      refine .inl ?_
      have hmin : min k n ≤ chunks.length + 3 := by
        simp only [executedOps, List.length_take] at hk
        omega
      exact hout_of_take (min k n) hmin
  refine ⟨rfl, hfsync, hreplace, hinv, ?_, ?_⟩
  · rcases hf : fail with _ | ⟨n, c⟩
    · rw [writeFinalFS, executedOps, writeOps_fold_full, hch]
      exact .inr rfl
    · rw [writeFinalFS]
      rw [cleanupFS_out]
      refine .inl ?_
      have hn := hfail n c hf
      rw [writeOps_length] at hn
      exact hout_of_take n (by omega)
  · intro hnone
    rw [writeFinalFS, executedOps, writeOps_fold_full, hch]

/-- Claim C1, witness: a two-chunk serialized content with a failure
injected right before the replace, and the uninterrupted run. -/
theorem process_file_atomic_write_witness :
    (∀ x ∈ fsTrace ⟨some "old", none⟩
        (executedOps ["ab", "cd"] (some (5, .osErr))),
      x.out = (⟨some "old", none⟩ : FS).out ∨ x.out = some "abcd") ∧
    writeFinalFS ⟨some "old", none⟩ ["ab", "cd"] none false =
      ⟨some "abcd", none⟩ := by
  refine ⟨(process_file_atomic_write "out" "f.json" "zzz" "abcd" ["ab", "cd"]
      (by decide) ⟨some "old", none⟩ (some (5, .osErr))
      (fun n c h => by
        cases h
        decide) false).2.2.2.1,
    (process_file_atomic_write "out" "f.json" "zzz" "abcd" ["ab", "cd"]
      (by decide) ⟨some "old", none⟩ none (fun n c h => by cases h) false).2.2.2.2.2
        rfl⟩

/-! ### Claim C4: write-failure handling -/

/-- Claim C4, counterexample: a TypeError during serialization (an
exception that is neither PermissionError nor OSError) reaches the
final except clause of the write phase, which removes the temp file
but re-raises the original exception unchanged: no FileProcessingError
is raised, contradicting the claim that every write-sequence failure
raises one. -/
theorem write_failure_not_fpe_cex :
    writeExc (some (1, .otherExc "TypeError")) "out/f.json" =
      some (.unexpected "TypeError") ∧
    isFPE (writeExc (some (1, .otherExc "TypeError")) "out/f.json") = false ∧
    (writeFinalFS ⟨none, none⟩ ["x"] (some (1, .otherExc "TypeError")) false).tmp =
      none := by
  refine ⟨rfl, rfl, rfl⟩

/-- Claim C4 (amended): for every failure during the write sequence
the temp file is removed (best-effort: the unlink is attempted only
when cleanup itself does not fail, and a cleanup failure never changes
the raised exception, which does not depend on it) and the output path
is untouched; a PermissionError or any other OSError is wrapped as a
FileProcessingError, while any other exception is re-raised unchanged
rather than wrapped. -/
theorem write_failure_cleanup (chunks : List String) (n : Nat) (c : ExcClass)
    (hn : n < (writeOps chunks).length) (s0 : FS) (outPathName : String) :
    (writeFinalFS s0 chunks (some (n, c)) false).tmp = none ∧
    (∀ cleanupFails,
      (writeFinalFS s0 chunks (some (n, c)) cleanupFails).out = s0.out) ∧
    (c = .permission → writeExc (some (n, c)) outPathName =
      some (.fpe ("Permission denied writing " ++ outPathName))) ∧
    (c = .osErr → writeExc (some (n, c)) outPathName =
      some (.fpe ("OS error writing " ++ outPathName))) ∧
    (∀ t, c = .otherExc t → writeExc (some (n, c)) outPathName =
      some (.unexpected t)) := by
  rw [writeOps_length] at hn
  refine ⟨?_, ?_, ?_, ?_, ?_⟩
  · rw [writeFinalFS]
    exact cleanupFS_tmp _
  · intro cleanupFails
    rw [writeFinalFS, cleanupFS_out]
    rw [executedOps, writeOps_take_fold chunks s0 n (by omega)]
    split_ifs <;> rfl
  · intro hc
    subst hc
    rfl
  · intro hc
    subst hc
    rfl
  · intro t hc
    subst hc
    rfl

/-- Claim C4, witness: the amended theorem applied to a permission
failure at the fsync step of a one-chunk write. -/
theorem write_failure_cleanup_witness :
    (writeFinalFS ⟨some "old", some "x"⟩ ["x"] (some (3, .permission)) false).tmp =
      none ∧
    writeExc (some (3, .permission)) "out/f.json" =
      some (.fpe ("Permission denied writing " ++ "out/f.json")) := by
  rcases write_failure_cleanup ["x"] 3 .permission
      (by rw [writeOps_length]; omega) ⟨some "old", some "x"⟩ "out/f.json" with
    ⟨h1, _, h3, _⟩
  exact ⟨h1, h3 rfl⟩


/-! ### Normalised-value invariant lemmas -/

theorem normedD_cons_iff (k : String) (v : Value) (tl : VDict) :
    normedD (.cons k v tl) = true ↔
      (strLower k = k ∧ k ∉ tl.keys ∧ normedV v = true ∧ normedD tl = true) := by
  simp [normedD, Bool.and_eq_true, decide_eq_true_eq]
  tauto

theorem normedD_keys_nodup (d : VDict) (h : normedD d = true) :
    d.keys.Nodup := by
  induction d with
  | nil => simp [VDict.keys]
  | cons k v tl ih =>
    rcases (normedD_cons_iff k v tl).1 h with ⟨_, hmem, _, htl⟩
    simp [VDict.keys, List.nodup_cons, hmem, ih htl]

theorem VDict.get_some_mem (d : VDict) (k : String) (v : Value)
    (h : d.get k = some v) : k ∈ d.keys := by
  induction d with
  | nil => simp [VDict.get] at h
  | cons k0 v0 tl ih =>
    by_cases h0 : k0 = k
    · simp [VDict.keys, h0]
    · simp [VDict.get, h0] at h
      simp [VDict.keys]
      exact .inr (ih h)

theorem keys_cat (d e : VDict) : (d.cat e).keys = d.keys ++ e.keys := by
  induction d with
  | nil => simp [VDict.cat, VDict.keys]
  | cons k v tl ih => simp [VDict.cat, VDict.keys, ih]

theorem cat_assoc (a b c : VDict) : (a.cat b).cat c = a.cat (b.cat c) := by
  induction a with
  | nil => simp [VDict.cat]
  | cons k v tl ih => simp [VDict.cat, ih]

theorem insert_not_mem_eq_cat (d : VDict) (k : String) (v : Value)
    (h : k ∉ d.keys) : d.insert k v = d.cat (.cons k v .nil) := by
  induction d with
  | nil => simp [VDict.insert, VDict.cat]
  | cons k0 v0 tl ih =>
    simp [VDict.keys] at h
    have h0 : ¬k0 = k := fun hh => h.1 hh.symm
    simp [VDict.insert, h0, VDict.cat, ih h.2]

theorem keys_insert_subset (d : VDict) (k : String) (v : Value) :
    ∀ k2 ∈ (d.insert k v).keys, k2 ∈ d.keys ∨ k2 = k := by
  intro k2 hk2
  by_cases hm : k ∈ d.keys
  · rw [VDict.keys_insert_mem _ _ _ hm] at hk2
    exact .inl hk2
  · rw [VDict.keys_insert_not_mem _ _ _ hm] at hk2
    simpa using hk2

theorem insert_normed (d : VDict) (k : String) (w : Value)
    (hd : normedD d = true) (hw : normedV w = true) (hk : strLower k = k) :
    normedD (d.insert k w) = true := by
  induction d with
  | nil =>
    simp only [VDict.insert]
    rw [normedD_cons_iff]
    simp [hk, hw, VDict.keys, normedD]
  | cons k0 v0 tl ih =>
    rcases (normedD_cons_iff k0 v0 tl).1 hd with ⟨h1, h2, h3, h4⟩
    by_cases h0 : k0 = k
    · subst h0
      simp only [VDict.insert, if_pos]
      rw [normedD_cons_iff]
      exact ⟨h1, h2, hw, h4⟩
    · simp only [VDict.insert, h0, ite_false]
      rw [normedD_cons_iff]
      refine ⟨h1, ?_, h3, ih h4⟩
      intro hmem
      rcases keys_insert_subset tl k w k0 hmem with hin | heq
      · exact h2 hin
      · exact h0 heq

theorem erase_normed (d : VDict) (k : String) (hd : normedD d = true) :
    normedD (d.erase k) = true := by
  induction d with
  | nil => simp [VDict.erase, normedD]
  | cons k0 v0 tl ih =>
    rcases (normedD_cons_iff k0 v0 tl).1 hd with ⟨h1, h2, h3, h4⟩
    by_cases h0 : k0 = k
    · simp only [VDict.erase, h0, if_pos]
      exact h4
    · simp only [VDict.erase, h0, ite_false]
      rw [normedD_cons_iff]
      refine ⟨h1, ?_, h3, ih h4⟩
      intro hmem
      exact h2 ((VDict.keys_erase_sublist tl k).mem hmem)

theorem filterRelevant_keys_subset (es : VDict) :
    ∀ k ∈ (filterRelevant es).keys, k ∈ es.keys := by
  induction es with
  | nil => simp [filterRelevant]
  | cons k0 v0 tl ih =>
    intro k hk
    by_cases h0 : k0 ∈ RELEVANT_KEYS
    · simp only [filterRelevant, h0, if_pos, VDict.keys, List.mem_cons] at hk
      rcases hk with rfl | hk
      · simp [VDict.keys]
      · simp [VDict.keys, ih k hk]
    · simp only [filterRelevant, h0, ite_false] at hk
      simp [VDict.keys, ih k hk]

theorem filterRelevant_normed (es : VDict) (h : normedD es = true) :
    normedD (filterRelevant es) = true := by
  induction es with
  | nil => simpa [filterRelevant] using h
  | cons k0 v0 tl ih =>
    rcases (normedD_cons_iff k0 v0 tl).1 h with ⟨h1, h2, h3, h4⟩
    by_cases h0 : k0 ∈ RELEVANT_KEYS
    · simp only [filterRelevant, h0, if_pos]
      rw [normedD_cons_iff]
      refine ⟨h1, ?_, h3, ih h4⟩
      intro hmem
      exact h2 (filterRelevant_keys_subset tl k0 hmem)
    · simp only [filterRelevant, h0, ite_false]
      exact ih h4

theorem filterRelevant_relevant (es : VDict) :
    ∀ k ∈ (filterRelevant es).keys, k ∈ RELEVANT_KEYS := by
  induction es with
  | nil => simp [filterRelevant, VDict.keys]
  | cons k0 v0 tl ih =>
    intro k hk
    by_cases h0 : k0 ∈ RELEVANT_KEYS
    · simp only [filterRelevant, h0, if_pos, VDict.keys, List.mem_cons] at hk
      rcases hk with rfl | hk
      · exact h0
      · exact ih k hk
    · simp only [filterRelevant, h0, ite_false] at hk
      exact ih k hk

theorem filterRelevant_id (es : VDict)
    (h : ∀ k ∈ es.keys, k ∈ RELEVANT_KEYS) : filterRelevant es = es := by
  induction es with
  | nil => rfl
  | cons k0 v0 tl ih =>
    have h0 : k0 ∈ RELEVANT_KEYS := h k0 (by simp [VDict.keys])
    rw [filterRelevant, if_pos h0, ih (fun k hk => h k (by simp [VDict.keys, hk]))]


theorem cat_nil (d : VDict) : d.cat .nil = d := by
  induction d with
  | nil => rfl
  | cons k v tl ih => simp [VDict.cat, ih]

mutual

theorem deepNorm_normed : (v : Value) → normedV (deep_normalize_keys v) = true
  | .null => rfl
  | .bool _ => rfl
  | .int _ => rfl
  | .float _ => rfl
  | .str _ => rfl
  | .list xs => by
    simp only [deep_normalize_keys, normedV]
    exact deepNormList_normed xs
  | .dict es => by
    simp only [deep_normalize_keys, normedV]
    exact deepNormEntries_normed es .nil rfl

theorem deepNormList_normed : (xs : VList) → normedL (deepNormList xs) = true
  | .nil => rfl
  | .cons v tl => by
    simp only [deepNormList, normedL, Bool.and_eq_true]
    exact ⟨deepNorm_normed v, deepNormList_normed tl⟩

theorem deepNormEntries_normed : (es : VDict) → (acc : VDict) →
    normedD acc = true → normedD (deepNormEntries es acc) = true
  | .nil, _, h => h
  | .cons k v tl, acc, h =>
    deepNormEntries_normed tl _
      (insert_normed acc (strLower k) (deep_normalize_keys v) h
        (deepNorm_normed v) (strLower_idem k))

end

mutual

theorem deepNorm_id : (v : Value) → normedV v = true → deep_normalize_keys v = v
  | .null, _ => rfl
  | .bool _, _ => rfl
  | .int _, _ => rfl
  | .float _, _ => rfl
  | .str _, _ => rfl
  | .list xs, h => by
    simp only [deep_normalize_keys]
    rw [deepNormList_id xs (by simpa [normedV] using h)]
  | .dict es, h => by
    simp only [deep_normalize_keys]
    rw [deepNormEntries_id es .nil (by simpa [normedV] using h)
      (fun k _ hk2 => by simp [VDict.keys] at hk2)]
    rfl

theorem deepNormList_id : (xs : VList) → normedL xs = true → deepNormList xs = xs
  | .nil, _ => rfl
  | .cons v tl, h => by
    simp only [normedL, Bool.and_eq_true] at h
    simp only [deepNormList]
    rw [deepNorm_id v h.1, deepNormList_id tl h.2]

theorem deepNormEntries_id : (es : VDict) → (acc : VDict) →
    normedD es = true → (∀ k, k ∈ es.keys → k ∉ acc.keys) →
    deepNormEntries es acc = acc.cat es
  | .nil, acc, _, _ => (cat_nil acc).symm
  | .cons k v tl, acc, h, hdisj => by
    rcases (normedD_cons_iff k v tl).1 h with ⟨h1, h2, h3, h4⟩
    simp only [deepNormEntries]
    rw [h1, deepNorm_id v h3]
    rw [insert_not_mem_eq_cat acc k v
      (hdisj k (by simp [VDict.keys]))]
    rw [deepNormEntries_id tl (acc.cat (.cons k v .nil)) h4 ?_]
    · rw [cat_assoc]
      rfl
    · intro k2 hk2 hk2in
      rw [keys_cat] at hk2in
      simp only [List.mem_append, VDict.keys, List.mem_cons,
        List.not_mem_nil, or_false] at hk2in
      rcases hk2in with hin | rfl
      · exact hdisj k2 (by simp [VDict.keys, hk2]) hin
      · exact h2 hk2

end


/-! ### Step identities on invariant records -/

theorem normalisation_id (es : VDict) (h : normedD es = true) :
    normalisation_casse_clefs (.dict es) = .dict es := by
  simp only [normalisation_casse_clefs]
  rw [deepNormEntries_id es .nil h (fun k _ hk => by simp [VDict.keys] at hk)]
  rfl

theorem remove_id (es : VDict) (h : ∀ k ∈ es.keys, k ∈ RELEVANT_KEYS) :
    remove_irrelevant_data_points (.dict es) = .dict es := by
  simp only [remove_irrelevant_data_points]
  rw [filterRelevant_id es h]

theorem formatDateKey_id (es : VDict) (k : String) (h : stableDate es k) :
    formatDateKey es k = es := by
  unfold formatDateKey
  cases hg : es.get k with
  | none => rfl
  | some v =>
    cases v with
    | str s =>
      show (match format_iso_date_to_ddmmyyyy s with
            | some t => es.insert k (.str t)
            | none => es) = es
      rw [h s hg]
    | null => rfl
    | bool b => rfl
    | int n => rfl
    | float q => rfl
    | list xs => rfl
    | dict d => rfl

theorem format_id (es : VDict) (h1 : stableDate es "last_maintenance_date")
    (h2 : stableDate es "next_maintenance_due") :
    format_dates (.dict es) = .dict es := by
  simp only [format_dates]
  rw [formatDateKey_id es _ h1, formatDateKey_id es _ h2]

theorem convert_id (es : VDict) (h : specsOk es) :
    convert_miles_to_meters (.dict es) = .dict es := by
  rcases h with hnone | ⟨sp, hget, hdm, hsm⟩
  · simp [convert_miles_to_meters, hnone, convertField, VDict.get]
  · simp only [convert_miles_to_meters, hget]
    rw [convertField_none _ _ _ hdm, convertField_none _ _ _ hsm]
    simp only [Bool.or_self, Option.isSome_some, ite_true, ite_false,
      Bool.false_or]
    rw [VDict.insert_of_get_eq es _ _ hget]
    simp

theorem missing_id (es : VDict) (h : contactOk es) :
    missing_contact_information (.dict es) = .dict es := by
  rcases h with ⟨sub, hget⟩
  simp [missing_contact_information, hget]

/-! ### Step preservation lemmas -/

theorem get_normedV (d : VDict) (k : String) (v : Value)
    (hd : normedD d = true) (h : d.get k = some v) : normedV v = true := by
  induction d with
  | nil => simp [VDict.get] at h
  | cons k0 v0 tl ih =>
    rcases (normedD_cons_iff k0 v0 tl).1 hd with ⟨_, _, h3, h4⟩
    by_cases h0 : k0 = k
    · simp [VDict.get, h0] at h
      rw [← h]
      exact h3
    · simp [VDict.get, h0] at h
      exact ih h4 h

theorem formatDateKey_normed (es : VDict) (k : String)
    (hn : normedD es = true) (hk : strLower k = k) :
    normedD (formatDateKey es k) = true := by
  unfold formatDateKey
  cases hg : es.get k with
  | none => exact hn
  | some v =>
    cases v with
    | str s =>
      show normedD (match format_iso_date_to_ddmmyyyy s with
            | some t => es.insert k (.str t)
            | none => es) = true
      cases hf : format_iso_date_to_ddmmyyyy s with
      | some t => exact insert_normed es k (.str t) hn rfl hk
      | none => exact hn
    | null => exact hn
    | bool b => exact hn
    | int n => exact hn
    | float q => exact hn
    | list xs => exact hn
    | dict d => exact hn

theorem formatDateKey_keys_subset (es : VDict) (k : String) :
    ∀ k2 ∈ (formatDateKey es k).keys, k2 ∈ es.keys ∨ k2 = k := by
  unfold formatDateKey
  cases hg : es.get k with
  | none => exact fun k2 h => .inl h
  | some v =>
    cases v with
    | str s =>
      intro k2 h2
      revert h2
      show k2 ∈ (match format_iso_date_to_ddmmyyyy s with
            | some t => es.insert k (.str t)
            | none => es).keys → k2 ∈ es.keys ∨ k2 = k
      cases hf : format_iso_date_to_ddmmyyyy s with
      | some t => exact fun h2 => keys_insert_subset es k _ k2 h2
      | none => exact fun h2 => .inl h2
    | null => exact fun k2 h => .inl h
    | bool b => exact fun k2 h => .inl h
    | int n => exact fun k2 h => .inl h
    | float q => exact fun k2 h => .inl h
    | list xs => exact fun k2 h => .inl h
    | dict d => exact fun k2 h => .inl h

theorem digitChar_not_dash (n : Nat) : ¬(digitChar n = '-') := by
  unfold digitChar
  split <;> decide

theorem renderDDMMYYYY_no_dash (y m d : Nat) :
    containsDash (renderDDMMYYYY y m d) = false := by
  simp only [renderDDMMYYYY, containsDash, pad2, pad4]
  simp only [String.data_append]
  simp [List.any_append, digitChar_not_dash]

theorem format_iso_none_of_no_dash (t : String)
    (h : containsDash t = false) : format_iso_date_to_ddmmyyyy t = none := by
  unfold format_iso_date_to_ddmmyyyy
  rw [if_pos]
  simp [h]

theorem format_iso_out_stable (s t : String)
    (h : format_iso_date_to_ddmmyyyy s = some t) :
    format_iso_date_to_ddmmyyyy t = none := by
  rw [format_iso_eq] at h
  cases hf : isoDateFields s with
  | none => rw [hf] at h; simp at h
  | some tr =>
    rcases tr with ⟨y, m, d⟩
    rw [hf] at h
    dsimp only at h
    by_cases hv : validCalendarDate y m d = true
    · rw [if_pos hv] at h
      simp only [Option.some.injEq] at h
      rw [← h]
      exact format_iso_none_of_no_dash _ (renderDDMMYYYY_no_dash y m d)
    · rw [if_neg hv] at h
      simp at h

theorem formatDateKey_stable_self (es : VDict) (k : String) :
    stableDate (formatDateKey es k) k := by
  intro s hget
  rw [formatDateKey_get_self] at hget
  cases hg : es.get k with
  | none => rw [hg] at hget; simp at hget
  | some v =>
    rw [hg] at hget
    cases v with
    | str s0 =>
      simp only [Option.some.injEq, Value.str.injEq] at hget
      cases hf : format_iso_date_to_ddmmyyyy s0 with
      | some t =>
        rw [hf] at hget
        rw [← hget]
        exact format_iso_out_stable s0 t hf
      | none =>
        rw [hf] at hget
        rw [← hget]
        exact hf
    | null => simp at hget
    | bool b => simp at hget
    | int n => simp at hget
    | float q => simp at hget
    | list xs => simp at hget
    | dict d => simp at hget

theorem formatDateKey_stable_other (es : VDict) (k k2 : String) (h : k2 ≠ k)
    (hs : stableDate es k2) : stableDate (formatDateKey es k) k2 := by
  intro s hget
  rw [formatDateKey_get_ne es k k2 h] at hget
  exact hs s hget


theorem convertField_normed (sp : VDict) (mk metk : String)
    (h : normedD sp = true) (hmet : strLower metk = metk) :
    normedD (convertField sp mk metk).1 = true := by
  cases hpm : parsedMile sp mk with
  | none =>
    rw [convertField_none _ _ _ hpm]
    exact h
  | some q =>
    rw [convertField_some _ _ _ _ hpm]
    exact insert_normed _ _ _ (erase_normed _ _ h) rfl hmet

theorem convertField_keys_subset (sp : VDict) (mk metk : String) :
    ∀ k ∈ (convertField sp mk metk).1.keys, k ∈ sp.keys ∨ k = metk := by
  cases hpm : parsedMile sp mk with
  | none =>
    rw [convertField_none _ _ _ hpm]
    exact fun k h => .inl h
  | some q =>
    rw [convertField_some _ _ _ _ hpm]
    intro k hk
    rcases keys_insert_subset _ _ _ k hk with hin | rfl
    · exact .inl ((VDict.keys_erase_sublist sp mk).mem hin)
    · exact .inr rfl

theorem convertPair_parse_none (sp : VDict) (hnd : sp.keys.Nodup) :
    parsedMile ((convertField (convertField sp "depth_capacity_miles"
        "depth_capacity_meters").1 "drilling_speed_miles_per_day"
        "drilling_speed_meters_per_day").1) "depth_capacity_miles" = none ∧
    parsedMile ((convertField (convertField sp "depth_capacity_miles"
        "depth_capacity_meters").1 "drilling_speed_miles_per_day"
        "drilling_speed_meters_per_day").1) "drilling_speed_miles_per_day" =
      none := by
  set p1 := convertField sp "depth_capacity_miles" "depth_capacity_meters"
    with hp1
  have hnd1 : p1.1.keys.Nodup := by
    cases hdm : parsedMile sp "depth_capacity_miles" with
    | none =>
      rw [hp1, convertField_none _ _ _ hdm]
      exact hnd
    | some q =>
      rw [hp1, convertField_some _ _ _ _ hdm]
      exact (insert_keys_nodup _ _ _
        ((VDict.keys_erase_sublist sp "depth_capacity_miles").nodup hnd))
  have hdm1 : parsedMile p1.1 "depth_capacity_miles" = none := by
    cases hdm : parsedMile sp "depth_capacity_miles" with
    | none =>
      rw [hp1, convertField_none _ _ _ hdm]
      exact hdm
    | some q =>
      rw [hp1, convertField_some _ _ _ _ hdm]
      unfold parsedMile
      rw [VDict.get_insert_ne _ _ _ _ (by decide),
        VDict.get_erase_self _ _ hnd]
  have hsm1 : parsedMile p1.1 "drilling_speed_miles_per_day" =
      parsedMile sp "drilling_speed_miles_per_day" := by
    cases hdm : parsedMile sp "depth_capacity_miles" with
    | none => rw [hp1, convertField_none _ _ _ hdm]
    | some q =>
      rw [hp1, convertField_some _ _ _ _ hdm]
      unfold parsedMile
      rw [VDict.get_insert_ne _ _ _ _ (by decide),
        VDict.get_erase_ne _ _ _ (by decide)]
  constructor
  · cases hsm : parsedMile p1.1 "drilling_speed_miles_per_day" with
    | none =>
      rw [convertField_none _ _ _ hsm]
      exact hdm1
    | some q =>
      rw [convertField_some _ _ _ _ hsm]
      unfold parsedMile at hdm1 ⊢
      rw [VDict.get_insert_ne _ _ _ _ (by decide),
        VDict.get_erase_ne _ _ _ (by decide)]
      exact hdm1
  · cases hsm : parsedMile p1.1 "drilling_speed_miles_per_day" with
    | none =>
      rw [convertField_none _ _ _ hsm]
      exact hsm
    | some q =>
      rw [convertField_some _ _ _ _ hsm]
      unfold parsedMile
      rw [VDict.get_insert_ne _ _ _ _ (by decide),
        VDict.get_erase_self _ _ hnd1]

theorem convert_stage_core (es : VDict) (sp0 : VDict) (hn : normedD es = true)
    (hsp0n : normedD sp0 = true)
    (heq : convert_miles_to_meters (.dict es) =
      .dict (es.insert "specifications"
        (.dict ((convertField (convertField sp0 "depth_capacity_miles"
          "depth_capacity_meters").1 "drilling_speed_miles_per_day"
          "drilling_speed_meters_per_day").1)))) :
    ∃ out, convert_miles_to_meters (.dict es) = .dict out ∧
      normedD out = true ∧
      (∀ k ∈ out.keys, k ∈ es.keys ∨ k = "specifications") ∧
      (∀ k, k ≠ "specifications" → out.get k = es.get k) ∧
      specsOk out := by
  have hsp2n : normedD ((convertField (convertField sp0 "depth_capacity_miles"
      "depth_capacity_meters").1 "drilling_speed_miles_per_day"
      "drilling_speed_meters_per_day").1) = true :=
    convertField_normed _ _ _ (convertField_normed _ _ _ hsp0n rfl) rfl
  refine ⟨_, heq, ?_, ?_, ?_, ?_⟩
  · exact insert_normed es _ _ hn hsp2n rfl
  · exact keys_insert_subset es _ _
  · intro k hk
    exact VDict.get_insert_ne es _ k _ (Ne.symm hk)
  · exact .inr ⟨_, VDict.get_insert_self es _ _,
      convertPair_parse_none sp0 (normedD_keys_nodup sp0 hsp0n)⟩

theorem convert_stage (es : VDict) (hn : normedD es = true) :
    ∃ out, convert_miles_to_meters (.dict es) = .dict out ∧
      normedD out = true ∧
      (∀ k ∈ out.keys, k ∈ es.keys ∨ k = "specifications") ∧
      (∀ k, k ≠ "specifications" → out.get k = es.get k) ∧
      specsOk out := by
  cases hg : es.get "specifications" with
  | none =>
    refine ⟨es, ?_, hn, fun k h => .inl h, fun k _ => rfl, .inl hg⟩
    simp [convert_miles_to_meters, hg, convertField, VDict.get]
  | some v =>
    cases v with
    | dict sp =>
      refine convert_stage_core es sp hn (get_normedV es _ _ hn hg) ?_
      simp only [convert_miles_to_meters, hg]
      split_ifs with h1 h2
      · rfl
      · rfl
      · simp at h2
    | null =>
      refine convert_stage_core es .nil hn rfl ?_
      simp only [convert_miles_to_meters, hg]
      split_ifs with h1 h2
      · rfl
      · rfl
      · simp at h2
    | bool b =>
      refine convert_stage_core es .nil hn rfl ?_
      simp only [convert_miles_to_meters, hg]
      split_ifs with h1 h2
      · rfl
      · rfl
      · simp at h2
    | int n =>
      refine convert_stage_core es .nil hn rfl ?_
      simp only [convert_miles_to_meters, hg]
      split_ifs with h1 h2
      · rfl
      · rfl
      · simp at h2
    | float q =>
      refine convert_stage_core es .nil hn rfl ?_
      simp only [convert_miles_to_meters, hg]
      split_ifs with h1 h2
      · rfl
      · rfl
      · simp at h2
    | str s =>
      refine convert_stage_core es .nil hn rfl ?_
      simp only [convert_miles_to_meters, hg]
      split_ifs with h1 h2
      · rfl
      · rfl
      · simp at h2
    | list xs =>
      refine convert_stage_core es .nil hn rfl ?_
      simp only [convert_miles_to_meters, hg]
      split_ifs with h1 h2
      · rfl
      · rfl
      · simp at h2

theorem missing_stage (es : VDict) (hn : normedD es = true) :
    ∃ out, missing_contact_information (.dict es) = .dict out ∧
      normedD out = true ∧
      (∀ k ∈ out.keys, k ∈ es.keys ∨ k = "contact_information") ∧
      (∀ k, k ≠ "contact_information" → out.get k = es.get k) ∧
      contactOk out := by
  cases hg : es.get "contact_information" with
  | none =>
    refine ⟨es.insert "contact_information" (.dict contactTemplate),
      by simp [missing_contact_information, hg], ?_, keys_insert_subset es _ _,
      fun k hk => VDict.get_insert_ne es _ k _ (Ne.symm hk),
      ⟨contactTemplate, VDict.get_insert_self es _ _⟩⟩
    exact insert_normed es _ _ hn (by decide) rfl
  | some v =>
    cases v with
    | dict sub =>
      exact ⟨es, by simp [missing_contact_information, hg], hn,
        fun k h => .inl h, fun k _ => rfl, ⟨sub, hg⟩⟩
    | null =>
      refine ⟨es.insert "contact_information" (.dict contactTemplate),
        by simp [missing_contact_information, hg], ?_, keys_insert_subset es _ _,
        fun k hk => VDict.get_insert_ne es _ k _ (Ne.symm hk),
        ⟨contactTemplate, VDict.get_insert_self es _ _⟩⟩
      exact insert_normed es _ _ hn (by decide) rfl
    | bool b =>
      refine ⟨es.insert "contact_information" (.dict contactTemplate),
        by simp [missing_contact_information, hg], ?_, keys_insert_subset es _ _,
        fun k hk => VDict.get_insert_ne es _ k _ (Ne.symm hk),
        ⟨contactTemplate, VDict.get_insert_self es _ _⟩⟩
      exact insert_normed es _ _ hn (by decide) rfl
    | int n =>
      refine ⟨es.insert "contact_information" (.dict contactTemplate),
        by simp [missing_contact_information, hg], ?_, keys_insert_subset es _ _,
        fun k hk => VDict.get_insert_ne es _ k _ (Ne.symm hk),
        ⟨contactTemplate, VDict.get_insert_self es _ _⟩⟩
      exact insert_normed es _ _ hn (by decide) rfl
    | float q =>
      refine ⟨es.insert "contact_information" (.dict contactTemplate),
        by simp [missing_contact_information, hg], ?_, keys_insert_subset es _ _,
        fun k hk => VDict.get_insert_ne es _ k _ (Ne.symm hk),
        ⟨contactTemplate, VDict.get_insert_self es _ _⟩⟩
      exact insert_normed es _ _ hn (by decide) rfl
    | str s =>
      refine ⟨es.insert "contact_information" (.dict contactTemplate),
        by simp [missing_contact_information, hg], ?_, keys_insert_subset es _ _,
        fun k hk => VDict.get_insert_ne es _ k _ (Ne.symm hk),
        ⟨contactTemplate, VDict.get_insert_self es _ _⟩⟩
      exact insert_normed es _ _ hn (by decide) rfl
    | list xs =>
      refine ⟨es.insert "contact_information" (.dict contactTemplate),
        by simp [missing_contact_information, hg], ?_, keys_insert_subset es _ _,
        fun k hk => VDict.get_insert_ne es _ k _ (Ne.symm hk),
        ⟨contactTemplate, VDict.get_insert_self es _ _⟩⟩
      exact insert_normed es _ _ hn (by decide) rfl


/-! ### Claim C8: pipeline idempotence -/

theorem pipeline_invariants (v : Value) :
    ∃ es, applyPipeline v = .dict es ∧ normedD es = true ∧
      (∀ k ∈ es.keys, k ∈ RELEVANT_KEYS) ∧
      stableDate es "last_maintenance_date" ∧
      stableDate es "next_maintenance_due" ∧
      specsOk es ∧ contactOk es := by
  -- stage 1: normalisation
  have h1 : ∃ n1, normalisation_casse_clefs v = .dict n1 ∧ normedD n1 = true := by
    cases v with
    | dict es => exact ⟨_, rfl, deepNormEntries_normed es .nil rfl⟩
    | null => exact ⟨.nil, rfl, rfl⟩
    | bool b => exact ⟨.nil, rfl, rfl⟩
    | int n => exact ⟨.nil, rfl, rfl⟩
    | float q => exact ⟨.nil, rfl, rfl⟩
    | str s => exact ⟨.nil, rfl, rfl⟩
    | list xs => exact ⟨.nil, rfl, rfl⟩
  rcases h1 with ⟨n1, hn1, hn1n⟩
  -- stage 2: allow-list filter
  have hr : remove_irrelevant_data_points (.dict n1) = .dict (filterRelevant n1) :=
    rfl
  have hrn : normedD (filterRelevant n1) = true := filterRelevant_normed n1 hn1n
  have hrrel : ∀ k ∈ (filterRelevant n1).keys, k ∈ RELEVANT_KEYS :=
    filterRelevant_relevant n1
  set r := filterRelevant n1 with hrdef
  -- stage 3: date formatting
  set f := formatDateKey (formatDateKey r "last_maintenance_date")
    "next_maintenance_due" with hfdef
  have hf : format_dates (.dict r) = .dict f := rfl
  have hfn : normedD f = true := by
    rw [hfdef]
    exact formatDateKey_normed _ _ (formatDateKey_normed _ _ hrn (by decide))
      (by decide)
  have hfrel : ∀ k ∈ f.keys, k ∈ RELEVANT_KEYS := by
    intro k hk
    rw [hfdef] at hk
    rcases formatDateKey_keys_subset _ _ k hk with hk2 | rfl
    · rcases formatDateKey_keys_subset _ _ k hk2 with hk3 | rfl
      · exact hrrel k hk3
      · decide
    · decide
  have hfs1 : stableDate f "last_maintenance_date" := by
    rw [hfdef]
    exact formatDateKey_stable_other _ _ _ (by decide)
      (formatDateKey_stable_self r "last_maintenance_date")
  have hfs2 : stableDate f "next_maintenance_due" := by
    rw [hfdef]
    exact formatDateKey_stable_self _ "next_maintenance_due"
  -- stage 4: mileage conversion
  rcases convert_stage f hfn with ⟨c, hc, hcn, hckeys, hcget, hcspecs⟩
  have hcrel : ∀ k ∈ c.keys, k ∈ RELEVANT_KEYS := by
    intro k hk
    rcases hckeys k hk with hk2 | rfl
    · exact hfrel k hk2
    · decide
  have hcs1 : stableDate c "last_maintenance_date" := by
    intro s hget
    rw [hcget _ (by decide)] at hget
    exact hfs1 s hget
  have hcs2 : stableDate c "next_maintenance_due" := by
    intro s hget
    rw [hcget _ (by decide)] at hget
    exact hfs2 s hget
  -- stage 5: contact information
  rcases missing_stage c hcn with ⟨m, hm, hmn, hmkeys, hmget, hmcontact⟩
  have hmrel : ∀ k ∈ m.keys, k ∈ RELEVANT_KEYS := by
    intro k hk
    rcases hmkeys k hk with hk2 | rfl
    · exact hcrel k hk2
    · decide
  have hms1 : stableDate m "last_maintenance_date" := by
    intro s hget
    rw [hmget _ (by decide)] at hget
    exact hcs1 s hget
  have hms2 : stableDate m "next_maintenance_due" := by
    intro s hget
    rw [hmget _ (by decide)] at hget
    exact hcs2 s hget
  have hmspecs : specsOk m := by
    rcases hcspecs with hnone | ⟨sp, hget, hdm, hsm⟩
    · exact .inl ((hmget _ (by decide)).trans hnone)
    · exact .inr ⟨sp, (hmget _ (by decide)).trans hget, hdm, hsm⟩
  refine ⟨m, ?_, hmn, hmrel, hms1, hms2, hmspecs, hmcontact⟩
  show missing_contact_information (convert_miles_to_meters (format_dates
    (remove_irrelevant_data_points (normalisation_casse_clefs v)))) = .dict m
  rw [hn1, hr, hf, hc, hm]

/-- Claim C8: applying the five-step pipeline (normalisation of key
casing, allow-list filter, date formatting, mileage conversion,
contact-information default) twice to any input record yields the same
output as applying it once. -/
theorem applyPipeline_idem (v : Value) :
    applyPipeline (applyPipeline v) = applyPipeline v := by
  rcases pipeline_invariants v with ⟨es, hes, hn, hrel, hs1, hs2, hsp, hc⟩
  rw [hes]
  show missing_contact_information (convert_miles_to_meters (format_dates
    (remove_irrelevant_data_points (normalisation_casse_clefs (.dict es))))) =
    .dict es
  rw [normalisation_id es hn, remove_id es hrel, format_id es hs1 hs2,
    convert_id es hsp, missing_id es hc]

end DM
